import Mathlib

/-!
Verification of the half-edge mesh topology engine (GVT-3D).

The definitions below are a shallow embedding of the Python sources
`Mesh.py`, `HalfEdge.py`, `Face.py` and `Vertex.py`.

Modelling conventions:
* A `Vertex` object is identified with its index into the mesh's vertex
  arena (`Mesh.vertices`); vertex positions are a separate, index-aligned
  list of real 3-vectors (the code has no `__eq__` on `Vertex`, so Python
  equality is object identity, which coincides with the index).
* A `HalfEdge` object is identified with its creation index into an arena
  list; the object's reference fields (`next`, `prev`, `opposite`) become
  `Option Nat` ids, `vertex` the head vertex index and `face` the face index.
* The Python dict `Mesh.halfedges` is an insertion-ordered association list
  with in-place value overwrite, which is exactly dict semantics.
* Attribute errors / index errors raised by the Python code are modelled by
  `Option`: a construction or query that raises returns `none`.
* Floating point arithmetic is modelled by exact real arithmetic.
-/

/-- Embedding of `HalfEdge.__init__` (HalfEdge.py): the four reference
fields; `vertex` and `face` are set immediately after creation in
`Mesh.build_faces`, so they are plain fields here. -/
structure HalfEdge where
  vertex : Nat
  face : Nat
  next : Option Nat
  prev : Option Nat
  opposite : Option Nat
deriving DecidableEq

/-- Write the `next` field of the half-edge stored at index `i` (models
`last_halfedge.next = halfedge`). Out-of-range writes are no-ops (they
cannot occur on the real code paths). -/
def setNextAt : List HalfEdge → Nat → Nat → List HalfEdge
  | [], _, _ => []
  | h :: t, 0, v => { h with next := some v } :: t
  | h :: t, i + 1, v => h :: setNextAt t i v

/-- Write the `prev` field of the half-edge stored at index `i` (models
`halfedge.next.prev = halfedge` in `Mesh.link_halfedges`). -/
def setPrevAt : List HalfEdge → Nat → Nat → List HalfEdge
  | [], _, _ => []
  | h :: t, 0, v => { h with prev := some v } :: t
  | h :: t, i + 1, v => h :: setPrevAt t i v

/-- Write the `opposite` field of the half-edge stored at index `i` (models
`halfedge.opposite = self.halfedges[opposite_key]`). -/
def setOppAt : List HalfEdge → Nat → Nat → List HalfEdge
  | [], _, _ => []
  | h :: t, 0, v => { h with opposite := some v } :: t
  | h :: t, i + 1, v => h :: setOppAt t i v

/-- The directed-edge lookup table `Mesh.halfedges`: a Python dict from
(origin index, destination index) to half-edge id, kept as an association
list in insertion order. -/
abbrev HETable := List ((Nat × Nat) × Nat)

/-- Python dict assignment `self.halfedges[key] = value`: replaces the value
in place if the key is present, otherwise appends at the end. -/
def insertKey : HETable → Nat × Nat → Nat → HETable
  | [], k, v => [(k, v)]
  | e :: rest, k, v => if e.1 = k then (k, v) :: rest else e :: insertKey rest k v

/-- Python dict lookup `self.halfedges[key]` / `key in self.halfedges`. -/
def lookupKey : HETable → Nat × Nat → Option Nat
  | [], _ => none
  | e :: rest, k => if e.1 = k then some e.2 else lookupKey rest k

/-- State threaded through `Mesh.build_faces`: the half-edge arena, the
directed-edge table and the list of per-face anchor half-edges
(`face.halfedge`, in face order). -/
structure BuildState where
  hes : List HalfEdge
  table : HETable
  anchors : List Nat
deriving DecidableEq

/-- State of the inner per-face loop of `build_faces`: arena, table, and the
local variables `first_halfedge` / `last_halfedge`. -/
structure FaceState where
  hes : List HalfEdge
  table : HETable
  first : Option Nat
  last : Option Nat
deriving DecidableEq

/-- One iteration of the inner loop of `Mesh.build_faces` for loop index `i`
of a face with index list `idx` (length `k`): read
`start_vertex_index = idx[i]` and `end_vertex_index = idx[(i+1) % k]`,
check both vertex-arena accesses (an out-of-range index raises, i.e.
yields `none`), create the half-edge with `vertex = end`, `face = fi`,
chain it behind `last_halfedge`, record it in the table under the
directed key, and update `first`/`last`. -/
def buildFaceStep (nV fi k : Nat) (idx : List Nat) (i : Nat) (st : FaceState) :
    Option FaceState :=
  match idx.get? i, idx.get? ((i + 1) % k) with
  | some s, some e =>
    if s < nV then
      if e < nV then
        let hid := st.hes.length
        let hes1 := st.hes ++ [⟨e, fi, none, none, none⟩]
        let hes2 := match st.last with
          | some l => setNextAt hes1 l hid
          | none => hes1
        let first' := match st.first with
          | none => some hid
          | some f => some f
        some ⟨hes2, insertKey st.table (s, e) hid, first', some hid⟩
      else none
    else none
  | _, _ => none

/-- The inner `for i in range(num_vertices)` loop of `Mesh.build_faces`,
iterating over the list of loop indices. -/
def buildFaceLoop (nV fi k : Nat) (idx : List Nat) :
    List Nat → FaceState → Option FaceState
  | [], st => some st
  | i :: rest, st =>
    match buildFaceStep nV fi k idx i st with
    | some st' => buildFaceLoop nV fi k idx rest st'
    | none => none

/-- One iteration of the outer loop of `Mesh.build_faces`: run the inner
loop over `range(len(idx))` starting from fresh `first = last = None`,
then perform `last_halfedge.next = first_halfedge` (an `AttributeError`,
i.e. `none`, when the face was empty) and record
`face.halfedge = first_halfedge`. -/
def buildFace (nV fi : Nat) (idx : List Nat) (st : BuildState) : Option BuildState :=
  match buildFaceLoop nV fi idx.length idx (List.range idx.length) ⟨st.hes, st.table, none, none⟩ with
  | some fst =>
    match fst.first, fst.last with
    | some f, some l => some ⟨setNextAt fst.hes l f, fst.table, st.anchors ++ [f]⟩
    | _, _ => none
  | none => none

/-- `Mesh.build_faces`: the outer loop over the input faces, with `fi` the
index of the current face. -/
def buildFaces (nV : Nat) : List (List Nat) → Nat → BuildState → Option BuildState
  | [], _, st => some st
  | idx :: rest, fi, st =>
    match buildFace nV fi idx st with
    | some st' => buildFaces nV rest (fi + 1) st'
    | none => none

/-- One iteration of the loop in `Mesh.link_halfedges` for the table entry
`((a, b), hid)`: look up the reverse key `(b, a)` and set `opposite` if
present, then, if the half-edge's `next` is not `None`, set
`next.prev = this half-edge`. -/
def linkStep (table : HETable) (hes : List HalfEdge) (e : (Nat × Nat) × Nat) :
    List HalfEdge :=
  match lookupKey table (e.1.2, e.1.1) with
  | some oid =>
    match ((setOppAt hes e.2 oid).get? e.2).bind HalfEdge.next with
    | some nid => setPrevAt (setOppAt hes e.2 oid) nid e.2
    | none => setOppAt hes e.2 oid
  | none =>
    match (hes.get? e.2).bind HalfEdge.next with
    | some nid => setPrevAt hes nid e.2
    | none => hes

/-- `Mesh.link_halfedges`: iterate over the table entries in insertion
order. -/
def linkHalfedges (table : HETable) (hes : List HalfEdge) : List HalfEdge :=
  table.foldl (linkStep table) hes

/-- The topological part of a constructed `Mesh`: number of vertices,
half-edge arena (after linking), directed-edge table and per-face
anchors. -/
structure TMesh where
  nV : Nat
  hes : List HalfEdge
  table : HETable
  anchors : List Nat
deriving DecidableEq

/-- `Mesh.__init__` restricted to its topological effect: build the faces
and then link twins and predecessors.  A raised exception is `none`. -/
def mkMesh (nV : Nat) (faces : List (List Nat)) : Option TMesh :=
  match buildFaces nV faces 0 ⟨[], [], []⟩ with
  | some st => some ⟨nV, linkHalfedges st.table st.hes, st.table, st.anchors⟩
  | none => none

/-- Head vertex of the half-edge with id `i` (`he.vertex`). -/
def heVertex (hes : List HalfEdge) (i : Nat) : Option Nat :=
  (hes.get? i).map HalfEdge.vertex

/-- Face of the half-edge with id `i` (`he.face`). -/
def heFace (hes : List HalfEdge) (i : Nat) : Option Nat :=
  (hes.get? i).map HalfEdge.face

/-- Successor id of the half-edge with id `i` (`he.next`), flattened. -/
def heNext (hes : List HalfEdge) (i : Nat) : Option Nat :=
  (hes.get? i).bind HalfEdge.next

/-- Predecessor id of the half-edge with id `i` (`he.prev`), flattened. -/
def hePrev (hes : List HalfEdge) (i : Nat) : Option Nat :=
  (hes.get? i).bind HalfEdge.prev

/-- Twin id of the half-edge with id `i` (`he.opposite`), flattened. -/
def heOpp (hes : List HalfEdge) (i : Nat) : Option Nat :=
  (hes.get? i).bind HalfEdge.opposite

/-- `n`-fold iteration of `next` starting from half-edge id `a`. -/
def walkN (hes : List HalfEdge) (a : Nat) : Nat → Option Nat
  | 0 => some a
  | n + 1 => (walkN hes a n).bind (heNext hes)

/-- The loop of `Mesh.get_all_edges`: for each table entry, compute the
index pair (`self.vertices.index(halfedge.vertex)`,
`self.vertices.index(halfedge.next.vertex)`) — `Vertex` has no `__eq__`,
so `list.index` by identity is exactly the stored vertex index — and add
it to the edge set unless the reversed pair is already present.  The
Python `set` is modelled as a duplicate-free list in insertion order
(result order is unspecified anyway); `halfedge.next` being `None`
raises, i.e. yields `none`. -/
def edgeLoop (hes : List HalfEdge) : HETable → List (Nat × Nat) → Option (List (Nat × Nat))
  | [], acc => some acc
  | e :: rest, acc =>
    match hes.get? e.2 with
    | some he =>
      match he.next with
      | some nid =>
        match hes.get? nid with
        | some nhe =>
          if (nhe.vertex, he.vertex) ∈ acc then edgeLoop hes rest acc
          else edgeLoop hes rest (acc ++ [(he.vertex, nhe.vertex)])
        | none => none
      | none => none
    | none => none

/-- `Mesh.get_all_edges`. -/
def getAllEdges (m : TMesh) : Option (List (Nat × Nat)) :=
  edgeLoop m.hes m.table []

/-- A 3D position, with exact real coordinates. -/
abbrev Point := ℝ × ℝ × ℝ

/-- Embedding of the `Vertex` class (Vertex.py): three coordinates.  The
`halfedge` back-reference is not needed by any verified query. -/
structure Vertex where
  x : ℝ
  y : ℝ
  z : ℝ

/-- `Mesh.__init__`: `self.vertices = [Vertex(x, y, z) for x, y, z in vertices]`. -/
def mkVertices (input : List Point) : List Vertex :=
  input.map fun p => ⟨p.1, p.2.1, p.2.2⟩

/-- `Vertex.get_position()`. -/
def Vertex.get_position (v : Vertex) : Point := (v.x, v.y, v.z)

/-- `Mesh.get_all_vertices`: `[(vertex.x, vertex.y, vertex.z) for vertex in
self.vertices]` (the `np.float32` array construction is modelled as the
identity on exact reals). -/
def getAllVertices (vertices : List Vertex) : List Point :=
  vertices.map fun v => (v.x, v.y, v.z)

/-- Componentwise difference, `Vertex.subtract` / numpy vector subtraction. -/
noncomputable def sub3 (p q : Point) : Point := (p.1 - q.1, p.2.1 - q.2.1, p.2.2 - q.2.2)

/-- Scalar multiple, numpy `vector * scalar`. -/
noncomputable def smul3 (a : ℝ) (p : Point) : Point := (a * p.1, a * p.2.1, a * p.2.2)

/-- Componentwise division by a scalar, numpy `vector / scalar`. -/
noncomputable def div3 (p : Point) (a : ℝ) : Point := (p.1 / a, p.2.1 / a, p.2.2 / a)

/-- `np.cross` on 3-vectors. -/
noncomputable def cross3 (u v : Point) : Point :=
  (u.2.1 * v.2.2 - u.2.2 * v.2.1,
   u.2.2 * v.1 - u.1 * v.2.2,
   u.1 * v.2.1 - u.2.1 * v.1)

/-- `np.linalg.norm` on a 3-vector. -/
noncomputable def norm3 (p : Point) : ℝ :=
  Real.sqrt (p.1 ^ 2 + p.2.1 ^ 2 + p.2.2 ^ 2)

/-- `HalfEdge.length`: `norm(self.vertex.get_position() -
self.opposite.vertex.get_position())`.  Reading `self.opposite.vertex`
raises (`none`) on a boundary half-edge. -/
noncomputable def halfedgeLength (verts : List Point) (hes : List HalfEdge) (i : Nat) :
    Option ℝ :=
  (hes.get? i).bind fun he =>
    he.opposite.bind fun oid =>
      (hes.get? oid).bind fun ohe =>
        (verts.get? he.vertex).bind fun p =>
          (verts.get? ohe.vertex).bind fun q =>
            some (norm3 (sub3 p q))

/-- `HalfEdge.get_vertices`: `np.array([self.vertex.get_position(),
self.opposite.vertex.get_position()])`; raises on a boundary half-edge. -/
noncomputable def halfedgeGetVertices (verts : List Point) (hes : List HalfEdge) (i : Nat) :
    Option (Point × Point) :=
  (hes.get? i).bind fun he =>
    he.opposite.bind fun oid =>
      (hes.get? oid).bind fun ohe =>
        (verts.get? he.vertex).bind fun p =>
          (verts.get? ohe.vertex).bind fun q =>
            some (p, q)

/-- The normalisation step of `Face.normal`: return the zero vector
unnormalised when its norm is zero, the normalised vector otherwise. -/
noncomputable def normOrZero (v : Point) : Point :=
  if norm3 v = 0 then v else div3 v (norm3 v)

/-- `Face.normal`, as a function of the face's anchor half-edge id `a`
(a `Face` object holds nothing but its anchor): take
`v1 = he.vertex`, `v2 = he.next.vertex`, `v3 = he.next.next.vertex`,
and return the normalised cross product of `v2 - v1` and `v3 - v1`
(unnormalised when it has zero length). -/
noncomputable def faceNormal (verts : List Point) (hes : List HalfEdge) (a : Nat) :
    Option Point :=
  (hes.get? a).bind fun he1 =>
    he1.next.bind fun n1 =>
      (hes.get? n1).bind fun he2 =>
        he2.next.bind fun n2 =>
          (hes.get? n2).bind fun he3 =>
            (verts.get? he1.vertex).bind fun p1 =>
              (verts.get? he2.vertex).bind fun p2 =>
                (verts.get? he3.vertex).bind fun p3 =>
                  some (normOrZero (cross3 (sub3 p2 p1) (sub3 p3 p1)))

/-- `Vertex.center`: arithmetic mean of a list of positions, the zero
vector for an empty list. -/
noncomputable def centerOf (ps : List Point) : Point :=
  if ps.length = 0 then (0, 0, 0)
  else ((ps.map fun p => p.1).sum / (ps.length : ℝ),
        (ps.map fun p => p.2.1).sum / (ps.length : ℝ),
        (ps.map fun p => p.2.2).sum / (ps.length : ℝ))

/-- Sequence a list of fallible lookups, failing if any fails (Python
raises on the first failure). -/
def omapM {a b : Type} (f : a → Option b) : List a → Option (List b)
  | [] => some []
  | x :: xs => (f x).bind fun y => (omapM f xs).map fun ys => y :: ys

/-- The `while halfedge != self.halfedge` loop of
`Face.generate_next_vertex`, accumulating the visited head vertices, the
total edge length and the edge count.  The loop is given fuel; exhausted
fuel (a non-terminating walk) is `none`.  `HalfEdge` has no `__eq__`, so
the loop's comparison is object identity, i.e. id equality. -/
noncomputable def gnvLoop (verts : List Point) (hes : List HalfEdge) (a : Nat) :
    Nat → Nat → List Nat → ℝ → Nat → Option (List Nat × ℝ × Nat)
  | 0, _, _, _, _ => none
  | fuel + 1, cur, vs, tot, cnt =>
    if cur = a then some (vs, tot, cnt)
    else
      (hes.get? cur).bind fun he =>
        (halfedgeLength verts hes cur).bind fun l =>
          he.next.bind fun nxt =>
            gnvLoop verts hes a fuel nxt (vs ++ [he.vertex]) (tot + l) (cnt + 1)

/-- `Face.generate_next_vertex`, as a function of the face's anchor
half-edge id `a`: seed the accumulators with the anchor's head and
length, run the boundary walk, then return
`center - normal * avg_length`. -/
noncomputable def generateNextVertex (verts : List Point) (hes : List HalfEdge)
    (a : Nat) (fuel : Nat) : Option Point :=
  (hes.get? a).bind fun he0 =>
    (halfedgeLength verts hes a).bind fun l0 =>
      he0.next.bind fun n0 =>
        (gnvLoop verts hes a fuel n0 [he0.vertex] l0 1).bind fun acc =>
          (omapM verts.get? acc.1).bind fun ps =>
            (faceNormal verts hes a).bind fun nrm =>
              some (sub3 (centerOf ps) (smul3 (acc.2.1 / (acc.2.2 : ℝ)) nrm))

/-- Explicit model of the half-edge block created for one face: the face
with index `fi` and vertex-index list `idx`, whose half-edges start at
arena offset `B`, consists of one half-edge per position `r`, with head
`idx[(r+1) % k]`, face `fi`, and `next` pointing to the block member at
position `(r+1) % k`. -/
def expFaceHes (B fi : Nat) (idx : List Nat) : List HalfEdge :=
  (List.range idx.length).map fun r =>
    ⟨idx.getD ((r + 1) % idx.length) 0, fi, some (B + (r + 1) % idx.length), none, none⟩

/-- Explicit model of the whole arena produced by `build_faces`: the
concatenation of the per-face blocks. -/
def expHes (B fi : Nat) : List (List Nat) → List HalfEdge
  | [] => []
  | idx :: rest => expFaceHes B fi idx ++ expHes (B + idx.length) (fi + 1) rest

/-- The directed keys of one face, in creation order. -/
def faceKeys (idx : List Nat) : List (Nat × Nat) :=
  (List.range idx.length).map fun r => (idx.getD r 0, idx.getD ((r + 1) % idx.length) 0)

/-- All directed keys of the input, in creation order. -/
def allKeys : List (List Nat) → List (Nat × Nat)
  | [] => []
  | idx :: rest => faceKeys idx ++ allKeys rest

/-- Explicit model of the lookup-table entries of one face. -/
def expFaceTable (B : Nat) (idx : List Nat) : HETable :=
  (List.range idx.length).map fun r =>
    ((idx.getD r 0, idx.getD ((r + 1) % idx.length) 0), B + r)

/-- Explicit model of the whole lookup table, valid when no directed key is
duplicated (otherwise the dict silently overwrites, §9 of the spec). -/
def expTable (B : Nat) : List (List Nat) → HETable
  | [] => []
  | idx :: rest => expFaceTable B idx ++ expTable (B + idx.length) rest

/-- Sum of the degrees of the first `f` faces: the arena offset of face
`f`'s half-edge block. -/
def degSum : List (List Nat) → Nat → Nat
  | _, 0 => 0
  | [], _ + 1 => 0
  | idx :: rest, f + 1 => idx.length + degSum rest f

/-- Explicit model of the per-face anchors: face `f`'s anchor is the first
half-edge of its block. -/
def expAnchors (B : Nat) : List (List Nat) → List Nat
  | [] => []
  | idx :: rest => B :: expAnchors (B + idx.length) rest

/-- Well-formed polygon-soup input, following the spec's constraints: every
face lists at least 3 distinct vertex indices, all in range, and — the
spec's standing 2-manifold-or-boundary / consistent-winding assumption —
no directed edge occurs twice across the input. -/
def wellFormed (nV : Nat) (faces : List (List Nat)) : Prop :=
  (∀ idx ∈ faces, 3 ≤ idx.length ∧ idx.Nodup ∧ ∀ v ∈ idx, v < nV) ∧
    (allKeys faces).Nodup

/-- Boolean test that following `next` from `c` passes exactly through the
ids of `cyc` and then reaches `stop`. -/
def nextChainB (hes : List HalfEdge) : Nat → List Nat → Nat → Bool
  | c, [], stop => heNext hes c = some stop
  | c, b :: rest, stop => heNext hes c = some b && nextChainB hes b rest stop

/-- The unordered representative of a directed index pair. -/
def sym2 (p : Nat × Nat) : Nat × Nat :=
  if p.1 ≤ p.2 then p else (p.2, p.1)

/-- The number of undirected edges of a constructed mesh: the number of
distinct unordered pairs among the directed keys of its table. -/
def undirEdgeCount (m : TMesh) : Nat :=
  ((m.table.map fun e => sym2 e.1).dedup).length

theorem length_setNextAt (l : List HalfEdge) (i v : Nat) :
    (setNextAt l i v).length = l.length := by
  induction l generalizing i with
  | nil => rfl
  | cons h t ih => cases i with
    | zero => rfl
    | succ i => simpa [setNextAt] using ih i

theorem length_setPrevAt (l : List HalfEdge) (i v : Nat) :
    (setPrevAt l i v).length = l.length := by
  induction l generalizing i with
  | nil => rfl
  | cons h t ih => cases i with
    | zero => rfl
    | succ i => simpa [setPrevAt] using ih i

theorem length_setOppAt (l : List HalfEdge) (i v : Nat) :
    (setOppAt l i v).length = l.length := by
  induction l generalizing i with
  | nil => rfl
  | cons h t ih => cases i with
    | zero => rfl
    | succ i => simpa [setOppAt] using ih i

theorem get_setNextAt (l : List HalfEdge) (i v j : Nat) :
    (setNextAt l i v).get? j =
      if j = i then (l.get? i).map (fun h => { h with next := some v })
      else l.get? j := by
  induction l generalizing i j with
  | nil => simp [setNextAt]
  | cons h t ih =>
    cases i with
    | zero => cases j <;> simp [setNextAt]
    | succ i =>
      cases j with
      | zero => simp [setNextAt]
      | succ j => simpa [setNextAt, Nat.succ_eq_add_one] using ih i j

theorem get_setPrevAt (l : List HalfEdge) (i v j : Nat) :
    (setPrevAt l i v).get? j =
      if j = i then (l.get? i).map (fun h => { h with prev := some v })
      else l.get? j := by
  induction l generalizing i j with
  | nil => simp [setPrevAt]
  | cons h t ih =>
    cases i with
    | zero => cases j <;> simp [setPrevAt]
    | succ i =>
      cases j with
      | zero => simp [setPrevAt]
      | succ j => simpa [setPrevAt, Nat.succ_eq_add_one] using ih i j

theorem get_setOppAt (l : List HalfEdge) (i v j : Nat) :
    (setOppAt l i v).get? j =
      if j = i then (l.get? i).map (fun h => { h with opposite := some v })
      else l.get? j := by
  induction l generalizing i j with
  | nil => simp [setOppAt]
  | cons h t ih =>
    cases i with
    | zero => cases j <;> simp [setOppAt]
    | succ i =>
      cases j with
      | zero => simp [setOppAt]
      | succ j => simpa [setOppAt, Nat.succ_eq_add_one] using ih i j

theorem mem_insertKey {t : HETable} {k : Nat × Nat} {v : Nat} {e : (Nat × Nat) × Nat} :
    e ∈ insertKey t k v → e = (k, v) ∨ e ∈ t := by
  induction t with
  | nil => simp [insertKey]
  | cons hd tl ih =>
    simp only [insertKey]
    by_cases h : hd.1 = k
    · rw [if_pos h]
      intro he
      rcases List.mem_cons.1 he with he | he
      · exact Or.inl he
      · exact Or.inr (List.mem_cons_of_mem _ he)
    · rw [if_neg h]
      intro he
      rcases List.mem_cons.1 he with he | he
      · exact Or.inr (he ▸ List.mem_cons_self _ _)
      · rcases ih he with h1 | h1
        · exact Or.inl h1
        · exact Or.inr (List.mem_cons_of_mem _ h1)

theorem self_mem_insertKey (t : HETable) (k : Nat × Nat) (v : Nat) :
    (k, v) ∈ insertKey t k v := by
  induction t with
  | nil => simp [insertKey]
  | cons hd tl ih =>
    simp only [insertKey]
    by_cases h : hd.1 = k
    · rw [if_pos h]
      exact List.mem_cons_self _ _
    · rw [if_neg h]
      exact List.mem_cons_of_mem _ ih

theorem keys_mem_insertKey {t : HETable} {k k' : Nat × Nat} {v : Nat} :
    k' ∈ (insertKey t k v).map Prod.fst ↔ k' = k ∨ k' ∈ t.map Prod.fst := by
  induction t with
  | nil => simp [insertKey]
  | cons hd tl ih =>
    simp only [insertKey]
    by_cases h : hd.1 = k
    · rw [if_pos h]
      simp only [List.map_cons, List.mem_cons, ← h]
      tauto
    · rw [if_neg h]
      simp only [List.map_cons, List.mem_cons, ih]
      tauto

theorem keys_nodup_insertKey {t : HETable} {k : Nat × Nat} {v : Nat}
    (h : (t.map Prod.fst).Nodup) : ((insertKey t k v).map Prod.fst).Nodup := by
  induction t with
  | nil => simp [insertKey]
  | cons hd tl ih =>
    simp only [List.map_cons, List.nodup_cons] at h
    simp only [insertKey]
    by_cases hk : hd.1 = k
    · subst hk
      simpa [List.nodup_cons] using h
    · simp only [if_neg hk, List.map_cons, List.nodup_cons]
      refine ⟨fun hc => ?_, ih h.2⟩
      rcases keys_mem_insertKey.1 hc with rfl | hc
      · exact hk rfl
      · exact h.1 hc

theorem values_mem_insertKey {t : HETable} {k : Nat × Nat} {v v' : Nat} :
    v' ∈ (insertKey t k v).map Prod.snd → v' = v ∨ v' ∈ t.map Prod.snd := by
  induction t with
  | nil => simp [insertKey]
  | cons hd tl ih =>
    simp only [insertKey]
    by_cases h : hd.1 = k
    · rw [if_pos h]
      intro hv
      rw [List.map_cons] at hv
      rcases List.mem_cons.1 hv with hv | hv
      · exact Or.inl hv
      · exact Or.inr (by rw [List.map_cons]; exact List.mem_cons_of_mem _ hv)
    · rw [if_neg h]
      intro hv
      rw [List.map_cons] at hv
      rcases List.mem_cons.1 hv with hv | hv
      · exact Or.inr (by rw [List.map_cons]; exact hv ▸ List.mem_cons_self _ _)
      · rcases ih hv with h1 | h1
        · exact Or.inl h1
        · exact Or.inr (by rw [List.map_cons]; exact List.mem_cons_of_mem _ h1)

theorem values_nodup_insertKey {t : HETable} {k : Nat × Nat} {v : Nat}
    (h : (t.map Prod.snd).Nodup) (hv : v ∉ t.map Prod.snd) :
    ((insertKey t k v).map Prod.snd).Nodup := by
  induction t with
  | nil => simp [insertKey]
  | cons hd tl ih =>
    simp only [List.map_cons, List.nodup_cons] at h
    simp only [List.map_cons, List.mem_cons, not_or] at hv
    simp only [insertKey]
    by_cases hk : hd.1 = k
    · simp only [if_pos hk, List.map_cons, List.nodup_cons]
      exact ⟨fun hc => hv.2 hc, h.2⟩
    · simp only [if_neg hk, List.map_cons, List.nodup_cons]
      refine ⟨fun hc => ?_, ih h.2 hv.2⟩
      rcases values_mem_insertKey hc with rfl | hc
      · exact hv.1 rfl
      · exact h.1 hc

theorem lookupKey_sound {t : HETable} {k : Nat × Nat} {v : Nat}
    (h : lookupKey t k = some v) : (k, v) ∈ t := by
  induction t with
  | nil => simp [lookupKey] at h
  | cons hd tl ih =>
    simp only [lookupKey] at h
    by_cases hk : hd.1 = k
    · rw [if_pos hk] at h
      have hv : hd.2 = v := Option.some.inj h
      have : (k, v) = hd := by
        rcases hd with ⟨k1, v1⟩
        simp only at hk hv
        rw [hk, hv]
      exact this ▸ List.mem_cons_self _ _
    · rw [if_neg hk] at h
      exact List.mem_cons_of_mem _ (ih h)

theorem lookupKey_complete {t : HETable} {k : Nat × Nat} {v : Nat}
    (hnd : (t.map Prod.fst).Nodup) (h : (k, v) ∈ t) : lookupKey t k = some v := by
  induction t with
  | nil => simp at h
  | cons hd tl ih =>
    simp only [List.map_cons, List.nodup_cons] at hnd
    rcases List.mem_cons.1 h with rfl | h
    · simp [lookupKey]
    · have hk : hd.1 ≠ k := by
        rintro rfl
        exact hnd.1 (List.mem_map.2 ⟨(hd.1, v), h, rfl⟩)
      simp only [lookupKey, if_neg hk]
      exact ih hnd.2 h

theorem lookupKey_isSome_iff {t : HETable} {k : Nat × Nat} :
    (lookupKey t k).isSome = true ↔ k ∈ t.map Prod.fst := by
  induction t with
  | nil => simp [lookupKey]
  | cons hd tl ih =>
    simp only [lookupKey, List.map_cons, List.mem_cons]
    by_cases hk : hd.1 = k
    · simp [hk]
    · simp only [if_neg hk, ih]
      constructor
      · exact Or.inr
      · rintro (rfl | h)
        · exact absurd rfl hk
        · exact h

theorem insertKey_of_fresh {t : HETable} {k : Nat × Nat} {v : Nat}
    (h : k ∉ t.map Prod.fst) : insertKey t k v = t ++ [(k, v)] := by
  induction t with
  | nil => simp [insertKey]
  | cons hd tl ih =>
    simp only [List.map_cons, List.mem_cons, not_or] at h
    have hne : hd.1 ≠ k := fun hc => h.1 hc.symm
    simp only [insertKey, if_neg hne]
    rw [ih h.2, List.cons_append]

/-- The fully linked half-edges at positions `0 .. i-1` of a face block
(each `next` points to its successor inside the block). -/
def closedSeg (L fi k : Nat) (idx : List Nat) (i : Nat) : List HalfEdge :=
  (List.range i).map fun r =>
    ⟨idx.getD ((r + 1) % k) 0, fi, some (L + (r + 1)), none, none⟩

/-- The partially built face block after `j + 1` inner-loop iterations:
`j` linked half-edges followed by the most recently created one, whose
`next` is still unset. -/
def openSeg (L fi k : Nat) (idx : List Nat) (j : Nat) : List HalfEdge :=
  closedSeg L fi k idx j ++ [⟨idx.getD ((j + 1) % k) 0, fi, none, none, none⟩]

/-- Sequence of dict assignments. -/
def insertList (t : HETable) : List ((Nat × Nat) × Nat) → HETable
  | [] => t
  | e :: rest => insertList (insertKey t e.1 e.2) rest

/-- The table entries created by inner-loop iterations `i .. i+n-1` of a
face whose block starts at offset `L`. -/
def faceTableFrom (L : Nat) (idx : List Nat) (i n : Nat) : HETable :=
  (List.range' i n).map fun r => ((idx.getD r 0, idx.getD ((r + 1) % idx.length) 0), L + r)

theorem getD_get? {l : List Nat} {i : Nat} (h : i < l.length) :
    l.get? i = some (l.getD i 0) := by
  induction l generalizing i with
  | nil => simp at h
  | cons a t ih =>
    cases i with
    | zero => rfl
    | succ i => exact ih (by simpa using h)

theorem getD_mem {l : List Nat} {i : Nat} (h : i < l.length) : l.getD i 0 ∈ l := by
  induction l generalizing i with
  | nil => simp at h
  | cons a t ih =>
    cases i with
    | zero => exact List.mem_cons_self _ _
    | succ i => exact List.mem_cons_of_mem _ (ih (by simpa using h))

theorem setNextAt_append_right (l1 l2 : List HalfEdge) (i v : Nat) (h : l1.length ≤ i) :
    setNextAt (l1 ++ l2) i v = l1 ++ setNextAt l2 (i - l1.length) v := by
  induction l1 generalizing i with
  | nil => simp
  | cons a t ih =>
    cases i with
    | zero => simp at h
    | succ i =>
      have h' : t.length ≤ i := by simpa using h
      have hstep : setNextAt (a :: (t ++ l2)) (i + 1) v = a :: setNextAt (t ++ l2) i v := rfl
      simp only [List.cons_append, List.append_eq, hstep, ih i h', List.length_cons, Nat.succ_sub_succ]

theorem setNextAt_append_left (l1 l2 : List HalfEdge) (i v : Nat) (h : i < l1.length) :
    setNextAt (l1 ++ l2) i v = setNextAt l1 i v ++ l2 := by
  induction l1 generalizing i with
  | nil => simp at h
  | cons a t ih =>
    cases i with
    | zero => simp [setNextAt]
    | succ i =>
      have h' : i < t.length := by simpa using h
      have hstep : setNextAt (a :: (t ++ l2)) (i + 1) v = a :: setNextAt (t ++ l2) i v := rfl
      simp only [List.cons_append, List.append_eq, hstep, ih i h', setNextAt]

theorem closedSeg_length (L fi k : Nat) (idx : List Nat) (i : Nat) :
    (closedSeg L fi k idx i).length = i := by
  simp [closedSeg]

theorem openSeg_length (L fi k : Nat) (idx : List Nat) (j : Nat) :
    (openSeg L fi k idx j).length = j + 1 := by
  simp [openSeg, closedSeg_length]

theorem closedSeg_succ (L fi k : Nat) (idx : List Nat) (j : Nat) :
    closedSeg L fi k idx (j + 1) =
      closedSeg L fi k idx j ++ [⟨idx.getD ((j + 1) % k) 0, fi, some (L + (j + 1)), none, none⟩] := by
  simp [closedSeg, List.range_succ]

theorem buildFaceStep_eq (nV fi : Nat) (idx : List Nat) (i : Nat) (st : FaceState)
    (hik : i < idx.length)
    (hs : idx.getD i 0 < nV) (he : idx.getD ((i + 1) % idx.length) 0 < nV) :
    buildFaceStep nV fi idx.length idx i st =
      some ⟨(match st.last with
             | some l => setNextAt (st.hes ++ [⟨idx.getD ((i + 1) % idx.length) 0, fi, none, none, none⟩]) l st.hes.length
             | none => st.hes ++ [⟨idx.getD ((i + 1) % idx.length) 0, fi, none, none, none⟩]),
            insertKey st.table (idx.getD i 0, idx.getD ((i + 1) % idx.length) 0) st.hes.length,
            (match st.first with | none => some st.hes.length | some f => some f),
            some st.hes.length⟩ := by
  have hmod : (i + 1) % idx.length < idx.length := Nat.mod_lt _ (by omega)
  unfold buildFaceStep
  rw [getD_get? hik, getD_get? hmod]
  dsimp only
  rw [if_pos hs, if_pos he]

theorem openSeg_snoc (hes0 : List HalfEdge) (fi k : Nat) (idx : List Nat) (j : Nat) :
    setNextAt ((hes0 ++ openSeg hes0.length fi k idx j) ++
        [⟨idx.getD ((j + 2) % k) 0, fi, none, none, none⟩])
        (hes0.length + j) (hes0.length + (j + 1)) =
      hes0 ++ openSeg hes0.length fi k idx (j + 1) := by
  rw [List.append_assoc,
    setNextAt_append_right hes0 _ _ _ (by omega)]
  congr 1
  have hsub : hes0.length + j - hes0.length = j := by omega
  rw [hsub, openSeg, List.append_assoc,
    setNextAt_append_right _ _ _ _ (by rw [closedSeg_length])]
  rw [closedSeg_length]
  have hsub2 : j - j = 0 := by omega
  rw [hsub2]
  show closedSeg hes0.length fi k idx j ++
      ({ vertex := idx.getD ((j + 1) % k) 0, face := fi, next := some (hes0.length + (j + 1)),
         prev := none, opposite := none } ::
        [⟨idx.getD ((j + 2) % k) 0, fi, none, none, none⟩]) =
    openSeg hes0.length fi k idx (j + 1)
  rw [openSeg, closedSeg_succ]
  simp

theorem buildFaceLoop_go (nV fi : Nat) (idx : List Nat) (hwf : ∀ v ∈ idx, v < nV)
    (hes0 : List HalfEdge) :
    ∀ n j tbl, j + 1 + n = idx.length →
    buildFaceLoop nV fi idx.length idx (List.range' (j + 1) n)
        ⟨hes0 ++ openSeg hes0.length fi idx.length idx j, tbl,
         some hes0.length, some (hes0.length + j)⟩ =
      some ⟨hes0 ++ openSeg hes0.length fi idx.length idx (j + n),
            insertList tbl (faceTableFrom hes0.length idx (j + 1) n),
            some hes0.length, some (hes0.length + j + n)⟩ := by
  intro n
  induction n with
  | zero =>
    intro j tbl hjn
    simp [buildFaceLoop, insertList, faceTableFrom, List.range']
  | succ n ih =>
    intro j tbl hjn
    have hj1 : j + 1 < idx.length := by omega
    have hrange : List.range' (j + 1) (n + 1) = (j + 1) :: List.range' (j + 2) n := rfl
    rw [hrange]
    simp only [buildFaceLoop]
    rw [buildFaceStep_eq nV fi idx (j + 1) _ hj1
      (hwf _ (getD_mem hj1))
      (hwf _ (getD_mem (Nat.mod_lt _ (by omega))))]
    have hlen : (hes0 ++ openSeg hes0.length fi idx.length idx j).length =
        hes0.length + (j + 1) := by
      simp [openSeg_length]
    simp only [hlen]
    rw [show j + 1 + 1 = j + 2 from rfl, openSeg_snoc hes0 fi idx.length idx j]
    have := ih (j + 1) (insertKey tbl (idx.getD (j + 1) 0, idx.getD ((j + 2) % idx.length) 0)
      (hes0.length + (j + 1))) (by omega)
    rw [this]
    have harr : j + 1 + n = j + (n + 1) := by omega
    have harr2 : hes0.length + (j + 1) + n = hes0.length + j + (n + 1) := by omega
    rw [harr, harr2]
    rfl

theorem expFaceHes_decomp (L fi : Nat) (idx : List Nat) (hne : idx ≠ []) :
    expFaceHes L fi idx =
      closedSeg L fi idx.length idx (idx.length - 1) ++
        [⟨idx.getD 0 0, fi, some L, none, none⟩] := by
  obtain ⟨m, hm⟩ : ∃ m, idx.length = m + 1 :=
    ⟨idx.length - 1, by cases idx with | nil => exact absurd rfl hne | cons a t => simp⟩
  rw [expFaceHes, closedSeg, hm]
  simp only [Nat.add_sub_cancel]
  rw [List.range_succ, List.map_append]
  congr 1
  · apply List.map_congr_left
    intro r hr
    have hrm : r < m := List.mem_range.1 hr
    have h1 : (r + 1) % (m + 1) = r + 1 := Nat.mod_eq_of_lt (by omega)
    rw [h1]
  · simp only [List.map_cons, List.map_nil]
    have h0 : (m + 1) % (m + 1) = 0 := Nat.mod_self _
    rw [h0, Nat.add_zero]

theorem openSeg_close (hes0 : List HalfEdge) (fi : Nat) (idx : List Nat) (hne : idx ≠ []) :
    setNextAt (hes0 ++ openSeg hes0.length fi idx.length idx (idx.length - 1))
        (hes0.length + (idx.length - 1)) hes0.length =
      hes0 ++ expFaceHes hes0.length fi idx := by
  have hk : 0 < idx.length := by
    cases idx with | nil => exact absurd rfl hne | cons a t => simp
  rw [setNextAt_append_right hes0 _ _ _ (by omega)]
  congr 1
  have hsub : hes0.length + (idx.length - 1) - hes0.length = idx.length - 1 := by omega
  rw [hsub, openSeg,
    setNextAt_append_right _ _ _ _ (by rw [closedSeg_length]),
    closedSeg_length]
  have hsub2 : idx.length - 1 - (idx.length - 1) = 0 := by omega
  rw [hsub2, expFaceHes_decomp _ _ _ hne]
  congr 1
  show [({ vertex := idx.getD ((idx.length - 1 + 1) % idx.length) 0, face := fi,
           next := some hes0.length, prev := none, opposite := none } : HalfEdge)] = _
  have h1 : idx.length - 1 + 1 = idx.length := by omega
  rw [h1, Nat.mod_self]

theorem buildFace_spec (nV fi : Nat) (idx : List Nat) (st : BuildState)
    (hne : idx ≠ []) (hwf : ∀ v ∈ idx, v < nV) :
    buildFace nV fi idx st =
      some ⟨st.hes ++ expFaceHes st.hes.length fi idx,
            insertList st.table (faceTableFrom st.hes.length idx 0 idx.length),
            st.anchors ++ [st.hes.length]⟩ := by
  obtain ⟨m, hm⟩ : ∃ m, idx.length = m + 1 :=
    ⟨idx.length - 1, by cases idx with | nil => exact absurd rfl hne | cons a t => simp⟩
  have hk : 0 < idx.length := by omega
  unfold buildFace
  have hsplit : List.range idx.length = 0 :: List.range' 1 m := by
    rw [List.range_eq_range', hm]
    rfl
  rw [hsplit]
  simp only [buildFaceLoop]
  rw [buildFaceStep_eq nV fi idx 0 ⟨st.hes, st.table, none, none⟩ hk
    (hwf _ (getD_mem hk))
    (hwf _ (getD_mem (Nat.mod_lt _ (by omega))))]
  dsimp only
  simp only [Nat.zero_add]
  have hopen0 : openSeg st.hes.length fi idx.length idx 0 =
      [(⟨idx.getD (1 % idx.length) 0, fi, none, none, none⟩ : HalfEdge)] := by
    simp [openSeg, closedSeg]
  rw [← hopen0]
  have hgo := buildFaceLoop_go nV fi idx hwf st.hes m 0
    (insertKey st.table (idx.getD 0 0, idx.getD (1 % idx.length) 0) st.hes.length)
    (by omega)
  simp only [Nat.zero_add, Nat.add_zero] at hgo
  rw [hgo]
  dsimp only
  have hm1 : m = idx.length - 1 := by omega
  have hclose := openSeg_close st.hes fi idx hne
  rw [← hm1] at hclose
  rw [hclose]
  have hft : faceTableFrom st.hes.length idx 0 idx.length =
      ((idx.getD 0 0, idx.getD (1 % idx.length) 0), st.hes.length) ::
        faceTableFrom st.hes.length idx 1 m := by
    rw [faceTableFrom]
    rw [show List.range' 0 idx.length = 0 :: List.range' 1 m from by rw [hm]; rfl]
    rfl
  rw [hft]
  rfl

theorem expFaceHes_length (L fi : Nat) (idx : List Nat) :
    (expFaceHes L fi idx).length = idx.length := by
  simp [expFaceHes]

theorem insertList_append (t : HETable) (l1 l2 : List ((Nat × Nat) × Nat)) :
    insertList t (l1 ++ l2) = insertList (insertList t l1) l2 := by
  induction l1 generalizing t with
  | nil => rfl
  | cons e rest ih =>
    simp only [List.cons_append, insertList]
    exact ih _

theorem expFaceTable_eq (L : Nat) (idx : List Nat) :
    expFaceTable L idx = faceTableFrom L idx 0 idx.length := by
  rw [expFaceTable, faceTableFrom, List.range_eq_range']

theorem buildFaces_spec (nV : Nat) (faces : List (List Nat)) :
    ∀ fi st, (∀ idx ∈ faces, idx ≠ [] ∧ ∀ v ∈ idx, v < nV) →
    buildFaces nV faces fi st =
      some ⟨st.hes ++ expHes st.hes.length fi faces,
            insertList st.table (expTable st.hes.length faces),
            st.anchors ++ expAnchors st.hes.length faces⟩ := by
  induction faces with
  | nil =>
    intro fi st h
    simp [buildFaces, expHes, expTable, expAnchors, insertList]
  | cons idx rest ih =>
    intro fi st h
    obtain ⟨hne, hb⟩ := h idx (List.mem_cons_self _ _)
    simp only [buildFaces]
    rw [buildFace_spec nV fi idx st hne hb]
    dsimp only
    rw [ih (fi + 1) _ (fun i hi => h i (List.mem_cons_of_mem _ hi))]
    have hlen : (st.hes ++ expFaceHes st.hes.length fi idx).length =
        st.hes.length + idx.length := by
      simp [expFaceHes_length]
    simp only [hlen]
    congr 2
    · show (st.hes ++ expFaceHes st.hes.length fi idx) ++
          expHes (st.hes.length + idx.length) (fi + 1) rest = _
      rw [List.append_assoc]
      rfl
    · show insertList (insertList st.table (faceTableFrom st.hes.length idx 0 idx.length))
          (expTable (st.hes.length + idx.length) rest) = _
      rw [← insertList_append]
      rw [show expTable st.hes.length (idx :: rest) =
        expFaceTable st.hes.length idx ++ expTable (st.hes.length + idx.length) rest from rfl]
      rw [expFaceTable_eq]
    · show (st.anchors ++ [st.hes.length]) ++
          expAnchors (st.hes.length + idx.length) rest = _
      rw [List.append_assoc]
      rfl

theorem vertex_setPrevAt (l : List HalfEdge) (a v i : Nat) :
    ((setPrevAt l a v).get? i).map HalfEdge.vertex = (l.get? i).map HalfEdge.vertex := by
  rw [get_setPrevAt]
  by_cases h : i = a
  · rw [if_pos h, h, Option.map_map]
    cases l.get? a <;> rfl
  · rw [if_neg h]

theorem vertex_setOppAt (l : List HalfEdge) (a v i : Nat) :
    ((setOppAt l a v).get? i).map HalfEdge.vertex = (l.get? i).map HalfEdge.vertex := by
  rw [get_setOppAt]
  by_cases h : i = a
  · rw [if_pos h, h, Option.map_map]
    cases l.get? a <;> rfl
  · rw [if_neg h]

theorem next_setPrevAt (l : List HalfEdge) (a v i : Nat) :
    ((setPrevAt l a v).get? i).map HalfEdge.next = (l.get? i).map HalfEdge.next := by
  rw [get_setPrevAt]
  by_cases h : i = a
  · rw [if_pos h, h, Option.map_map]
    cases l.get? a <;> rfl
  · rw [if_neg h]

theorem next_setOppAt (l : List HalfEdge) (a v i : Nat) :
    ((setOppAt l a v).get? i).map HalfEdge.next = (l.get? i).map HalfEdge.next := by
  rw [get_setOppAt]
  by_cases h : i = a
  · rw [if_pos h, h, Option.map_map]
    cases l.get? a <;> rfl
  · rw [if_neg h]

theorem face_setPrevAt (l : List HalfEdge) (a v i : Nat) :
    ((setPrevAt l a v).get? i).map HalfEdge.face = (l.get? i).map HalfEdge.face := by
  rw [get_setPrevAt]
  by_cases h : i = a
  · rw [if_pos h, h, Option.map_map]
    cases l.get? a <;> rfl
  · rw [if_neg h]

theorem face_setOppAt (l : List HalfEdge) (a v i : Nat) :
    ((setOppAt l a v).get? i).map HalfEdge.face = (l.get? i).map HalfEdge.face := by
  rw [get_setOppAt]
  by_cases h : i = a
  · rw [if_pos h, h, Option.map_map]
    cases l.get? a <;> rfl
  · rw [if_neg h]

theorem opp_setPrevAt (l : List HalfEdge) (a v i : Nat) :
    ((setPrevAt l a v).get? i).map HalfEdge.opposite = (l.get? i).map HalfEdge.opposite := by
  rw [get_setPrevAt]
  by_cases h : i = a
  · rw [if_pos h, h, Option.map_map]
    cases l.get? a <;> rfl
  · rw [if_neg h]

theorem prev_setOppAt (l : List HalfEdge) (a v i : Nat) :
    ((setOppAt l a v).get? i).map HalfEdge.prev = (l.get? i).map HalfEdge.prev := by
  rw [get_setOppAt]
  by_cases h : i = a
  · rw [if_pos h, h, Option.map_map]
    cases l.get? a <;> rfl
  · rw [if_neg h]

theorem opp_setOppAt (l : List HalfEdge) (a v i : Nat) :
    ((setOppAt l a v).get? i).map HalfEdge.opposite =
      if i = a then (l.get? a).map (fun _ => some v)
      else (l.get? i).map HalfEdge.opposite := by
  rw [get_setOppAt]
  by_cases h : i = a
  · rw [if_pos h, if_pos h, Option.map_map]
    cases l.get? a <;> rfl
  · rw [if_neg h, if_neg h]

theorem prev_setPrevAt (l : List HalfEdge) (a v i : Nat) :
    ((setPrevAt l a v).get? i).map HalfEdge.prev =
      if i = a then (l.get? a).map (fun _ => some v)
      else (l.get? i).map HalfEdge.prev := by
  rw [get_setPrevAt]
  by_cases h : i = a
  · rw [if_pos h, if_pos h, Option.map_map]
    cases l.get? a <;> rfl
  · rw [if_neg h, if_neg h]

theorem bind_congr_of_map_eq {l1 l2 : List HalfEdge} {i j : Nat}
    (f : HalfEdge → Option Nat)
    (h : (l1.get? i).map f = (l2.get? j).map f) :
    (l1.get? i).bind f = (l2.get? j).bind f := by
  cases h1 : l1.get? i with
  | none =>
    rw [h1] at h
    cases h2 : l2.get? j with
    | none => rfl
    | some b => rw [h2] at h; simp at h
  | some a =>
    rw [h1] at h
    cases h2 : l2.get? j with
    | none => rw [h2] at h; simp at h
    | some b =>
      rw [h2] at h
      simp only [Option.map_some'] at h
      simp [Option.some.inj h]

theorem constmap_setOppAt (l : List HalfEdge) (a v i : Nat) (c : Option Nat) :
    ((setOppAt l a v).get? i).map (fun _ => c) = (l.get? i).map (fun _ => c) := by
  rw [get_setOppAt]
  by_cases h : i = a
  · rw [if_pos h, h, Option.map_map]
    cases l.get? a <;> rfl
  · rw [if_neg h]

theorem linkStep_length (T : HETable) (hes : List HalfEdge) (e : (Nat × Nat) × Nat) :
    (linkStep T hes e).length = hes.length := by
  unfold linkStep
  split
  · split
    · rw [length_setPrevAt, length_setOppAt]
    · rw [length_setOppAt]
  · split
    · rw [length_setPrevAt]
    · rfl

theorem linkStep_vertex (T : HETable) (hes : List HalfEdge) (e : (Nat × Nat) × Nat) (i : Nat) :
    ((linkStep T hes e).get? i).map HalfEdge.vertex = (hes.get? i).map HalfEdge.vertex := by
  unfold linkStep
  split
  · split
    · rw [vertex_setPrevAt, vertex_setOppAt]
    · rw [vertex_setOppAt]
  · split
    · rw [vertex_setPrevAt]
    · rfl

theorem linkStep_next (T : HETable) (hes : List HalfEdge) (e : (Nat × Nat) × Nat) (i : Nat) :
    ((linkStep T hes e).get? i).map HalfEdge.next = (hes.get? i).map HalfEdge.next := by
  unfold linkStep
  split
  · split
    · rw [next_setPrevAt, next_setOppAt]
    · rw [next_setOppAt]
  · split
    · rw [next_setPrevAt]
    · rfl

theorem linkStep_face (T : HETable) (hes : List HalfEdge) (e : (Nat × Nat) × Nat) (i : Nat) :
    ((linkStep T hes e).get? i).map HalfEdge.face = (hes.get? i).map HalfEdge.face := by
  unfold linkStep
  split
  · split
    · rw [face_setPrevAt, face_setOppAt]
    · rw [face_setOppAt]
  · split
    · rw [face_setPrevAt]
    · rfl

theorem linkStep_opp (T : HETable) (hes : List HalfEdge) (e : (Nat × Nat) × Nat) (i : Nat) :
    ((linkStep T hes e).get? i).map HalfEdge.opposite =
      if i = e.2 then
        match lookupKey T (e.1.2, e.1.1) with
        | some oid => (hes.get? e.2).map (fun _ => some oid)
        | none => (hes.get? i).map HalfEdge.opposite
      else (hes.get? i).map HalfEdge.opposite := by
  unfold linkStep
  split
  · split
    · rw [opp_setPrevAt, opp_setOppAt]
    · rw [opp_setOppAt]
  · split
    · rw [opp_setPrevAt]
      by_cases hi : i = e.2
      · rw [if_pos hi]
      · rw [if_neg hi]
    · by_cases hi : i = e.2
      · rw [if_pos hi]
      · rw [if_neg hi]

theorem linkStep_prev (T : HETable) (hes : List HalfEdge) (e : (Nat × Nat) × Nat) (i : Nat) :
    ((linkStep T hes e).get? i).map HalfEdge.prev =
      if (hes.get? e.2).bind HalfEdge.next = some i then
        (hes.get? i).map (fun _ => some e.2)
      else (hes.get? i).map HalfEdge.prev := by
  have hnx : ∀ oid, ((setOppAt hes e.2 oid).get? e.2).bind HalfEdge.next =
      (hes.get? e.2).bind HalfEdge.next :=
    fun oid => bind_congr_of_map_eq HalfEdge.next (next_setOppAt hes e.2 oid e.2)
  unfold linkStep
  split
  · rename_i oid hlk
    split
    · rename_i nid hnid
      rw [hnx oid] at hnid
      rw [prev_setPrevAt]
      by_cases hi : i = nid
      · rw [if_pos hi, if_pos (by rw [hnid, hi]), hi, constmap_setOppAt]
      · rw [if_neg hi, prev_setOppAt,
          if_neg (by rw [hnid]; exact fun hc => hi (Option.some.inj hc).symm)]
    · rename_i hnid
      rw [hnx oid] at hnid
      rw [prev_setOppAt, if_neg (by rw [hnid]; exact fun hc => Option.noConfusion hc)]
  · split
    · rename_i nid hnid
      rw [prev_setPrevAt]
      by_cases hi : i = nid
      · rw [if_pos hi, if_pos (by rw [hnid, hi]), hi]
      · rw [if_neg hi,
          if_neg (by rw [hnid]; exact fun hc => hi (Option.some.inj hc).symm)]
    · rename_i hnid
      rw [if_neg (by rw [hnid]; exact fun hc => Option.noConfusion hc)]

theorem linkFold_length (T : HETable) :
    ∀ (P : List ((Nat × Nat) × Nat)) (hes : List HalfEdge),
      (P.foldl (linkStep T) hes).length = hes.length := by
  intro P
  induction P with
  | nil => intro hes; rfl
  | cons e rest ih =>
    intro hes
    rw [List.foldl_cons, ih, linkStep_length]

theorem linkFold_vertex (T : HETable) :
    ∀ (P : List ((Nat × Nat) × Nat)) (hes : List HalfEdge) (i : Nat),
      ((P.foldl (linkStep T) hes).get? i).map HalfEdge.vertex =
        (hes.get? i).map HalfEdge.vertex := by
  intro P
  induction P with
  | nil => intro hes i; rfl
  | cons e rest ih =>
    intro hes i
    rw [List.foldl_cons, ih, linkStep_vertex]

theorem linkFold_next (T : HETable) :
    ∀ (P : List ((Nat × Nat) × Nat)) (hes : List HalfEdge) (i : Nat),
      ((P.foldl (linkStep T) hes).get? i).map HalfEdge.next =
        (hes.get? i).map HalfEdge.next := by
  intro P
  induction P with
  | nil => intro hes i; rfl
  | cons e rest ih =>
    intro hes i
    rw [List.foldl_cons, ih, linkStep_next]

theorem linkFold_face (T : HETable) :
    ∀ (P : List ((Nat × Nat) × Nat)) (hes : List HalfEdge) (i : Nat),
      ((P.foldl (linkStep T) hes).get? i).map HalfEdge.face =
        (hes.get? i).map HalfEdge.face := by
  intro P
  induction P with
  | nil => intro hes i; rfl
  | cons e rest ih =>
    intro hes i
    rw [List.foldl_cons, ih, linkStep_face]

theorem linkFold_opp_notmem (T : HETable) :
    ∀ (P : List ((Nat × Nat) × Nat)) (hes : List HalfEdge) (i : Nat),
      i ∉ P.map Prod.snd →
      ((P.foldl (linkStep T) hes).get? i).map HalfEdge.opposite =
        (hes.get? i).map HalfEdge.opposite := by
  intro P
  induction P with
  | nil => intro hes i _; rfl
  | cons e rest ih =>
    intro hes i hi
    simp only [List.map_cons, List.mem_cons, not_or] at hi
    rw [List.foldl_cons, ih _ _ hi.2, linkStep_opp, if_neg hi.1]

theorem get?_isSome_of_lt {hes : List HalfEdge} {i : Nat} (h : i < hes.length) :
    ∃ he, hes.get? i = some he := by
  rw [List.get?_eq_get h]
  exact ⟨_, rfl⟩

theorem linkFold_opp_mem (T : HETable) :
    ∀ (P : List ((Nat × Nat) × Nat)) (hes : List HalfEdge) (a b i j : Nat),
      ((a, b), i) ∈ P → (P.map Prod.snd).Nodup →
      lookupKey T (b, a) = some j → i < hes.length →
      ((P.foldl (linkStep T) hes).get? i).map HalfEdge.opposite = some (some j) := by
  intro P
  induction P with
  | nil => intro hes a b i j hmem; simp at hmem
  | cons e rest ih =>
    intro hes a b i j hmem hnd hlk hlt
    simp only [List.map_cons, List.nodup_cons] at hnd
    rcases List.mem_cons.1 hmem with heq | hmem'
    · subst heq
      rw [List.foldl_cons, linkFold_opp_notmem T rest _ i hnd.1, linkStep_opp]
      dsimp only
      rw [if_pos rfl, hlk]
      obtain ⟨he, hhe⟩ := get?_isSome_of_lt hlt
      rw [hhe]
      rfl
    · have hne : e.2 ≠ i := fun hc => hnd.1 (by
        rw [hc]
        exact List.mem_map.2 ⟨((a, b), i), hmem', rfl⟩)
      rw [List.foldl_cons]
      exact ih _ a b i j hmem' hnd.2 hlk (by rw [linkStep_length]; exact hlt)

theorem linkFold_opp_memnone (T : HETable) :
    ∀ (P : List ((Nat × Nat) × Nat)) (hes : List HalfEdge) (a b i : Nat),
      ((a, b), i) ∈ P → (P.map Prod.snd).Nodup →
      lookupKey T (b, a) = none →
      ((P.foldl (linkStep T) hes).get? i).map HalfEdge.opposite =
        (hes.get? i).map HalfEdge.opposite := by
  intro P
  induction P with
  | nil => intro hes a b i hmem; simp at hmem
  | cons e rest ih =>
    intro hes a b i hmem hnd hlk
    simp only [List.map_cons, List.nodup_cons] at hnd
    rcases List.mem_cons.1 hmem with heq | hmem'
    · subst heq
      rw [List.foldl_cons, linkFold_opp_notmem T rest _ i hnd.1, linkStep_opp]
      dsimp only
      rw [if_pos rfl, hlk]
    · have hne : e.2 ≠ i := fun hc => hnd.1 (by
        rw [hc]
        exact List.mem_map.2 ⟨((a, b), i), hmem', rfl⟩)
      rw [List.foldl_cons, ih _ a b i hmem' hnd.2 hlk, linkStep_opp, if_neg hne.symm]

theorem linkFold_opp_cases (T : HETable) :
    ∀ (P : List ((Nat × Nat) × Nat)) (hes : List HalfEdge) (i : Nat),
      (P.map Prod.snd).Nodup →
      ((P.foldl (linkStep T) hes).get? i).map HalfEdge.opposite =
          (hes.get? i).map HalfEdge.opposite ∨
        ∃ a b j, ((a, b), i) ∈ P ∧ lookupKey T (b, a) = some j ∧
          ((P.foldl (linkStep T) hes).get? i).map HalfEdge.opposite = some (some j) := by
  intro P
  induction P with
  | nil => intro hes i _; exact Or.inl rfl
  | cons e rest ih =>
    intro hes i hnd
    simp only [List.map_cons, List.nodup_cons] at hnd
    by_cases hi : i = e.2
    · cases hlk : lookupKey T (e.1.2, e.1.1) with
      | none =>
        have hstep : ((linkStep T hes e).get? i).map HalfEdge.opposite =
            (hes.get? i).map HalfEdge.opposite := by
          rw [linkStep_opp, if_pos hi, hlk, hi]
        rcases ih (linkStep T hes e) i hnd.2 with hl | ⟨a, b, j, hmem, hlk', heq⟩
        · rw [List.foldl_cons]
          exact Or.inl (hl.trans hstep)
        · exact absurd (List.mem_map.2 ⟨((a, b), i), hmem, rfl⟩) (hi ▸ hnd.1)
      | some j =>
        have hnotin : i ∉ rest.map Prod.snd := hi ▸ hnd.1
        have hstep : ((linkStep T hes e).get? i).map HalfEdge.opposite =
            (hes.get? e.2).map (fun _ => some j) := by
          rw [linkStep_opp, if_pos hi, hlk]
        rw [List.foldl_cons, linkFold_opp_notmem T rest _ i hnotin, hstep]
        cases hget : hes.get? e.2 with
        | none =>
          rw [hi, hget]
          exact Or.inl rfl
        | some he =>
          refine Or.inr ⟨e.1.1, e.1.2, j, ?_, hlk, ?_⟩
          · have : ((e.1.1, e.1.2), i) = e := by rw [hi]
            rw [this]
            exact List.mem_cons_self _ _
          · rfl
    · have hstep : ((linkStep T hes e).get? i).map HalfEdge.opposite =
          (hes.get? i).map HalfEdge.opposite := by
        rw [linkStep_opp, if_neg hi]
      rcases ih (linkStep T hes e) i hnd.2 with hl | ⟨a, b, j, hmem, hlk', heq⟩
      · rw [List.foldl_cons]
        exact Or.inl (hl.trans hstep)
      · rw [List.foldl_cons]
        exact Or.inr ⟨a, b, j, List.mem_cons_of_mem _ hmem, hlk', heq⟩

theorem bind_next_linkStep (T : HETable) (hes : List HalfEdge) (e : (Nat × Nat) × Nat)
    (i : Nat) :
    ((linkStep T hes e).get? i).bind HalfEdge.next = (hes.get? i).bind HalfEdge.next :=
  bind_congr_of_map_eq HalfEdge.next (linkStep_next T hes e i)

theorem linkFold_prev_frozen (T : HETable) :
    ∀ (P : List ((Nat × Nat) × Nat)) (hes : List HalfEdge) (i : Nat),
      (∀ e ∈ P, (hes.get? e.2).bind HalfEdge.next ≠ some i) →
      ((P.foldl (linkStep T) hes).get? i).map HalfEdge.prev =
        (hes.get? i).map HalfEdge.prev := by
  intro P
  induction P with
  | nil => intro hes i _; rfl
  | cons e rest ih =>
    intro hes i hw
    rw [List.foldl_cons]
    have hstep : ((linkStep T hes e).get? i).map HalfEdge.prev =
        (hes.get? i).map HalfEdge.prev := by
      rw [linkStep_prev, if_neg (hw e (List.mem_cons_self _ _))]
    rw [ih (linkStep T hes e) i (fun e' he' => by
      rw [bind_next_linkStep]
      exact hw e' (List.mem_cons_of_mem _ he')), hstep]

theorem linkFold_prev_stable (T : HETable) :
    ∀ (P : List ((Nat × Nat) × Nat)) (hes : List HalfEdge) (i h : Nat),
      (hes.get? i).map HalfEdge.prev = some (some h) →
      (∀ e ∈ P, (hes.get? e.2).bind HalfEdge.next = some i → e.2 = h) →
      ((P.foldl (linkStep T) hes).get? i).map HalfEdge.prev = some (some h) := by
  intro P
  induction P with
  | nil => intro hes i h h0 _; exact h0
  | cons e rest ih =>
    intro hes i h h0 hw
    rw [List.foldl_cons]
    have h0' : ((linkStep T hes e).get? i).map HalfEdge.prev = some (some h) := by
      rw [linkStep_prev]
      by_cases hww : (hes.get? e.2).bind HalfEdge.next = some i
      · rw [if_pos hww, hw e (List.mem_cons_self _ _) hww]
        cases hget : hes.get? i with
        | none => rw [hget] at h0; exact Option.noConfusion h0
        | some he => rfl
      · rw [if_neg hww]
        exact h0
    exact ih (linkStep T hes e) i h h0' (fun e' he' hx => by
      rw [bind_next_linkStep] at hx
      exact hw e' (List.mem_cons_of_mem _ he') hx)

theorem linkFold_prev_write (T : HETable) :
    ∀ (P : List ((Nat × Nat) × Nat)) (hes : List HalfEdge) (h i : Nat),
      h ∈ P.map Prod.snd → (hes.get? h).bind HalfEdge.next = some i →
      (∀ e ∈ P, (hes.get? e.2).bind HalfEdge.next = some i → e.2 = h) →
      i < hes.length →
      ((P.foldl (linkStep T) hes).get? i).map HalfEdge.prev = some (some h) := by
  intro P
  induction P with
  | nil => intro hes h i hmem; simp at hmem
  | cons e rest ih =>
    intro hes h i hmem hnext hw hlt
    rw [List.foldl_cons]
    by_cases hww : (hes.get? e.2).bind HalfEdge.next = some i
    · have he2 : e.2 = h := hw e (List.mem_cons_self _ _) hww
      have h0' : ((linkStep T hes e).get? i).map HalfEdge.prev = some (some h) := by
        rw [linkStep_prev, if_pos hww, he2]
        obtain ⟨he, hget⟩ := get?_isSome_of_lt hlt
        rw [hget]
        rfl
      exact linkFold_prev_stable T rest (linkStep T hes e) i h h0' (fun e' he' hx => by
        rw [bind_next_linkStep] at hx
        exact hw e' (List.mem_cons_of_mem _ he') hx)
    · have hmem' : h ∈ rest.map Prod.snd := by
        rcases List.mem_map.1 hmem with ⟨e', he', hval⟩
        rcases List.mem_cons.1 he' with heq | he''
        · exact absurd (by rw [← heq, hval]; exact hnext) hww
        · exact List.mem_map.2 ⟨e', he'', hval⟩
      exact ih (linkStep T hes e) h i hmem'
        (by rw [bind_next_linkStep]; exact hnext)
        (fun e' he' hx => by
          rw [bind_next_linkStep] at hx
          exact hw e' (List.mem_cons_of_mem _ he') hx)
        (by rw [linkStep_length]; exact hlt)

/-- Invariant carried through `build_faces`, holding for any input on which
construction succeeds: the table's keys are distinct (dict semantics), its
values are distinct in-range arena ids (each half-edge is registered under
at most one directed key), and no `opposite` field has been set yet. -/
def TableInv (hes : List HalfEdge) (tbl : HETable) : Prop :=
  (tbl.map Prod.fst).Nodup ∧ (tbl.map Prod.snd).Nodup ∧
    (∀ v ∈ tbl.map Prod.snd, v < hes.length) ∧
    ∀ he ∈ hes, he.opposite = none

theorem setNextAt_opp_mem : ∀ (l : List HalfEdge) (i v : Nat),
    ∀ he ∈ setNextAt l i v, ∃ he0 ∈ l, he.opposite = he0.opposite := by
  intro l
  induction l with
  | nil => intro i v he hmem; simp [setNextAt] at hmem
  | cons a t ih =>
    intro i v he hmem
    cases i with
    | zero =>
      rcases List.mem_cons.1 hmem with heq | hmem'
      · exact ⟨a, List.mem_cons_self _ _, by rw [heq]⟩
      · exact ⟨he, List.mem_cons_of_mem _ hmem', rfl⟩
    | succ i =>
      rcases List.mem_cons.1 hmem with heq | hmem'
      · exact ⟨a, List.mem_cons_self _ _, by rw [heq]⟩
      · obtain ⟨he0, h0, hopp⟩ := ih i v he hmem'
        exact ⟨he0, List.mem_cons_of_mem _ h0, hopp⟩

theorem tableInv_step {nV fi k : Nat} {idx : List Nat} {i : Nat} {st st' : FaceState}
    (h : buildFaceStep nV fi k idx i st = some st')
    (hInv : TableInv st.hes st.table) : TableInv st'.hes st'.table := by
  unfold buildFaceStep at h
  split at h
  case h_2 => exact Option.noConfusion h
  rename_i s e hs1 hs2
  split at h
  case isFalse => exact Option.noConfusion h
  split at h
  case isFalse => exact Option.noConfusion h
  obtain ⟨hk1, hk2, hk3, hk4⟩ := hInv
  have hfresh : st.hes.length ∉ st.table.map Prod.snd := fun hc =>
    absurd (hk3 _ hc) (by omega)
  have hLen1 : (st.hes ++ [(⟨e, fi, none, none, none⟩ : HalfEdge)]).length =
      st.hes.length + 1 := by simp
  have hOppNone : ∀ he ∈ st.hes ++ [(⟨e, fi, none, none, none⟩ : HalfEdge)],
      he.opposite = none := by
    intro he hmem
    rcases List.mem_append.1 hmem with hm | hm
    · exact hk4 he hm
    · rcases List.mem_singleton.1 hm with rfl
      rfl
  rw [← Option.some.inj h]
  refine ⟨keys_nodup_insertKey hk1, values_nodup_insertKey hk2 hfresh, ?_, ?_⟩
  · intro v hv
    have hlen2 : (match st.last with
        | some l => setNextAt (st.hes ++ [(⟨e, fi, none, none, none⟩ : HalfEdge)]) l st.hes.length
        | none => st.hes ++ [(⟨e, fi, none, none, none⟩ : HalfEdge)]).length =
        st.hes.length + 1 := by
      cases st.last with
      | none => exact hLen1
      | some l => rw [length_setNextAt]; exact hLen1
    rw [hlen2]
    rcases values_mem_insertKey hv with rfl | hv'
    · omega
    · have := hk3 _ hv'
      omega
  · intro he hmem
    cases hl : st.last with
    | none =>
      rw [hl] at hmem
      exact hOppNone he hmem
    | some l =>
      rw [hl] at hmem
      obtain ⟨he0, h0, hopp⟩ := setNextAt_opp_mem _ l st.hes.length he hmem
      rw [hopp]
      exact hOppNone he0 h0

theorem tableInv_loop {nV fi k : Nat} {idx : List Nat} :
    ∀ (is : List Nat) (st st' : FaceState),
      buildFaceLoop nV fi k idx is st = some st' →
      TableInv st.hes st.table → TableInv st'.hes st'.table := by
  intro is
  induction is with
  | nil =>
    intro st st' h hInv
    rw [← Option.some.inj h]
    exact hInv
  | cons i rest ih =>
    intro st st' h hInv
    rw [buildFaceLoop] at h
    split at h
    · rename_i st1 hst1
      exact ih _ _ h (tableInv_step hst1 hInv)
    · exact Option.noConfusion h

theorem tableInv_face {nV fi : Nat} {idx : List Nat} {st st' : BuildState}
    (h : buildFace nV fi idx st = some st')
    (hInv : TableInv st.hes st.table) : TableInv st'.hes st'.table := by
  unfold buildFace at h
  split at h
  case h_2 => exact Option.noConfusion h
  rename_i fst hfst
  split at h
  case h_2 => exact Option.noConfusion h
  rename_i f l hf hl
  have hInv' : TableInv fst.hes fst.table :=
    tableInv_loop _ ⟨st.hes, st.table, none, none⟩ fst hfst hInv
  obtain ⟨hk1, hk2, hk3, hk4⟩ := hInv'
  rw [← Option.some.inj h]
  refine ⟨hk1, hk2, ?_, ?_⟩
  · intro v hv
    rw [length_setNextAt]
    exact hk3 v hv
  · intro he hmem
    obtain ⟨he0, h0, hopp⟩ := setNextAt_opp_mem _ l f he hmem
    rw [hopp]
    exact hk4 he0 h0

theorem tableInv_faces {nV : Nat} :
    ∀ (faces : List (List Nat)) (fi : Nat) (st st' : BuildState),
      buildFaces nV faces fi st = some st' →
      TableInv st.hes st.table → TableInv st'.hes st'.table := by
  intro faces
  induction faces with
  | nil =>
    intro fi st st' h hInv
    rw [← Option.some.inj h]
    exact hInv
  | cons idx rest ih =>
    intro fi st st' h hInv
    rw [buildFaces] at h
    split at h
    · rename_i st1 hst1
      exact ih _ _ _ h (tableInv_face hst1 hInv)
    · exact Option.noConfusion h

theorem mkMesh_inv {nV : Nat} {faces : List (List Nat)} {m : TMesh}
    (h : mkMesh nV faces = some m) :
    ∃ st : BuildState, buildFaces nV faces 0 ⟨[], [], []⟩ = some st ∧
      m = ⟨nV, linkHalfedges st.table st.hes, st.table, st.anchors⟩ := by
  unfold mkMesh at h
  split at h
  · rename_i st hst
    exact ⟨st, hst, (Option.some.inj h).symm⟩
  · exact Option.noConfusion h

theorem mkMesh_tableInv {nV : Nat} {faces : List (List Nat)} {st : BuildState}
    (h : buildFaces nV faces 0 ⟨[], [], []⟩ = some st) :
    TableInv st.hes st.table :=
  tableInv_faces faces 0 _ st h ⟨List.nodup_nil, List.nodup_nil, by simp, by simp⟩

/-- C1: for every mesh produced by the constructor (`build_faces` followed by
`link_halfedges`), every half-edge whose `opposite` is set satisfies
`he.opposite.opposite == he`; consequently
`he.vertex == he.opposite.opposite.vertex`. -/
theorem c1_opposite_involution {nV : Nat} {faces : List (List Nat)} {m : TMesh}
    {i j : Nat} {he : HalfEdge}
    (hm : mkMesh nV faces = some m)
    (hhe : m.hes.get? i = some he) (hopp : he.opposite = some j) :
    ∃ he' : HalfEdge, m.hes.get? j = some he' ∧ he'.opposite = some i ∧
      (m.hes.get? i).map HalfEdge.vertex =
        he'.opposite.bind (fun t => (m.hes.get? t).map HalfEdge.vertex) := by
  obtain ⟨st, hst, hmesh⟩ := mkMesh_inv hm
  obtain ⟨hk1, hk2, hk3, hk4⟩ := mkMesh_tableInv hst
  have hmh : m.hes = st.table.foldl (linkStep st.table) st.hes := by rw [hmesh]; rfl
  have hmap : ((st.table.foldl (linkStep st.table) st.hes).get? i).map HalfEdge.opposite =
      some (some j) := by
    rw [← hmh, hhe, Option.map_some', hopp]
  rcases linkFold_opp_cases st.table st.table st.hes i hk2 with hl | ⟨a, b, j', hmem, hlk, heq⟩
  · exfalso
    rw [hmap] at hl
    cases hget : st.hes.get? i with
    | none => rw [hget] at hl; exact Option.noConfusion hl
    | some he0 =>
      rw [hget, Option.map_some', hk4 he0 (List.get?_mem hget)] at hl
      exact Option.noConfusion (Option.some.inj hl)
  · rw [hmap] at heq
    have hj : j' = j := (Option.some.inj (Option.some.inj heq)).symm
    subst hj
    have hrev : ((b, a), j') ∈ st.table := lookupKey_sound hlk
    have hlk2 : lookupKey st.table (a, b) = some i := lookupKey_complete hk1 hmem
    have hjlt : j' < st.hes.length :=
      hk3 _ (List.mem_map.2 ⟨((b, a), j'), hrev, rfl⟩)
    have hoppj : ((st.table.foldl (linkStep st.table) st.hes).get? j').map HalfEdge.opposite =
        some (some i) :=
      linkFold_opp_mem st.table st.table st.hes b a j' i hrev hk2 hlk2 hjlt
    rw [← hmh] at hoppj
    cases hget : m.hes.get? j' with
    | none => rw [hget] at hoppj; exact Option.noConfusion hoppj
    | some he' =>
      rw [hget, Option.map_some'] at hoppj
      refine ⟨he', rfl, Option.some.inj hoppj, ?_⟩
      rw [Option.some.inj hoppj, Option.some_bind, hhe]

/-- The closed tetrahedron mesh: 4 vertices, 4 consistently wound triangles. -/
def tetMesh : TMesh :=
  (mkMesh 4 [[0, 1, 2], [0, 2, 3], [0, 3, 1], [1, 3, 2]]).getD ⟨0, [], [], []⟩

theorem c1_opposite_involution_witness :
    ∃ he' : HalfEdge, tetMesh.hes.get? 8 = some he' ∧ he'.opposite = some 0 ∧
      (tetMesh.hes.get? 0).map HalfEdge.vertex =
        he'.opposite.bind (fun t => (tetMesh.hes.get? t).map HalfEdge.vertex) :=
  c1_opposite_involution
    (show mkMesh 4 [[0, 1, 2], [0, 2, 3], [0, 3, 1], [1, 3, 2]] = some tetMesh from by rfl)
    (show tetMesh.hes.get? 0 = some ⟨1, 0, some 1, some 2, some 8⟩ from by rfl)
    (show HalfEdge.opposite ⟨1, 0, some 1, some 2, some 8⟩ = some 8 from rfl)

/-- The single open quad mesh: 4 vertices, one face `[0,1,2,3]`, all four
half-edges boundary. -/
def quadMesh : TMesh := (mkMesh 4 [[0, 1, 2, 3]]).getD ⟨0, [], [], []⟩

/-- C7: after `link_halfedges`, a half-edge stored under directed key
`(a, b)` has its `opposite` set if and only if the reverse key `(b, a)` is
present in the lookup table; on the single quad `[0,1,2,3]` all 4
half-edges have `opposite` absent, while on a closed consistently wound
tetrahedron all 12 half-edges have a defined `opposite` and
`get_all_edges` returns exactly 6 pairs. -/
theorem c7_twin_iff_reverse_key :
    (∀ (nV : Nat) (faces : List (List Nat)) (m : TMesh) (a b i : Nat),
        mkMesh nV faces = some m → ((a, b), i) ∈ m.table →
        ((∃ he j, m.hes.get? i = some he ∧ he.opposite = some j) ↔
          (b, a) ∈ m.table.map Prod.fst)) ∧
    (mkMesh 4 [[0, 1, 2, 3]] = some quadMesh ∧ quadMesh.hes.length = 4 ∧
      ∀ i < 4, (quadMesh.hes.get? i).map HalfEdge.opposite = some none) ∧
    (mkMesh 4 [[0, 1, 2], [0, 2, 3], [0, 3, 1], [1, 3, 2]] = some tetMesh ∧
      tetMesh.hes.length = 12 ∧
      (∀ i < 12, ((tetMesh.hes.get? i).bind HalfEdge.opposite).isSome = true) ∧
      (getAllEdges tetMesh).map List.length = some 6) := by
  refine ⟨?_, by decide, by decide⟩
  intro nV faces m a b i hm hmem
  obtain ⟨st, hst, hmesh⟩ := mkMesh_inv hm
  obtain ⟨hk1, hk2, hk3, hk4⟩ := mkMesh_tableInv hst
  have hmh : m.hes = st.table.foldl (linkStep st.table) st.hes := by rw [hmesh]; rfl
  have htb : m.table = st.table := by rw [hmesh]
  rw [htb] at hmem
  constructor
  · rintro ⟨he, j, hhe, hopp⟩
    have hmap : ((st.table.foldl (linkStep st.table) st.hes).get? i).map HalfEdge.opposite =
        some (some j) := by
      rw [← hmh, hhe, Option.map_some', hopp]
    rcases linkFold_opp_cases st.table st.table st.hes i hk2 with hl | ⟨a', b', j', hmem', hlk, heq⟩
    · exfalso
      rw [hmap] at hl
      cases hget : st.hes.get? i with
      | none => rw [hget] at hl; exact Option.noConfusion hl
      | some he0 =>
        rw [hget, Option.map_some', hk4 he0 (List.get?_mem hget)] at hl
        exact Option.noConfusion (Option.some.inj hl)
    · have hkeyeq : ((a', b'), i) = ((a, b), i) :=
        List.inj_on_of_nodup_map hk2 hmem' hmem rfl
      have ha : a' = a := congrArg (fun p => p.1.1) hkeyeq
      have hb : b' = b := congrArg (fun p => p.1.2) hkeyeq
      rw [htb, ← ha, ← hb]
      exact List.mem_map.2 ⟨((b', a'), j'), lookupKey_sound hlk, rfl⟩
  · intro hkey
    rw [htb] at hkey
    obtain ⟨j, hj⟩ := Option.isSome_iff_exists.1 (lookupKey_isSome_iff.2 hkey)
    have hlt : i < st.hes.length := hk3 _ (List.mem_map.2 ⟨((a, b), i), hmem, rfl⟩)
    have := linkFold_opp_mem st.table st.table st.hes a b i j hmem hk2 hj hlt
    rw [← hmh] at this
    cases hget : m.hes.get? i with
    | none => rw [hget] at this; exact Option.noConfusion this
    | some he =>
      rw [hget, Option.map_some'] at this
      exact ⟨he, j, rfl, Option.some.inj this⟩

/-- The double-sided unit square: the quad and its reversed copy, so every
half-edge has a twin. -/
def squareMesh2 : TMesh :=
  (mkMesh 4 [[0, 1, 2, 3], [0, 3, 2, 1]]).getD ⟨0, [], [], []⟩

theorem c7_twin_iff_reverse_key_witness :
    ∃ he j, squareMesh2.hes.get? 0 = some he ∧ he.opposite = some j :=
  (c7_twin_iff_reverse_key.1 4 [[0, 1, 2, 3], [0, 3, 2, 1]] squareMesh2 0 1 0
    (by rfl) (by decide)).2 (by decide)

theorem expAnchors_get (B : Nat) :
    ∀ (faces : List (List Nat)) (f : Nat), f < faces.length →
      (expAnchors B faces).get? f = some (B + degSum faces f) := by
  intro faces
  induction faces generalizing B with
  | nil => intro f hf; simp at hf
  | cons idx rest ih =>
    intro f hf
    cases f with
    | zero => simp [expAnchors, degSum]
    | succ f =>
      rw [expAnchors, List.get?_cons_succ, ih (B + idx.length) f (by simpa using hf)]
      rw [show degSum (idx :: rest) (f + 1) = idx.length + degSum rest f from rfl]
      rw [Nat.add_assoc]

theorem expHes_get (B fi : Nat) :
    ∀ (faces : List (List Nat)) (f : Nat) (idx : List Nat) (r : Nat),
      faces.get? f = some idx → r < idx.length →
      (expHes B fi faces).get? (degSum faces f + r) =
        some ⟨idx.getD ((r + 1) % idx.length) 0, fi + f,
              some (B + degSum faces f + (r + 1) % idx.length), none, none⟩ := by
  intro faces
  induction faces generalizing B fi with
  | nil => intro f idx r hf; simp at hf
  | cons idx0 rest ih =>
    intro f idx r hf hr
    cases f with
    | zero =>
      have hidx : idx0 = idx := Option.some.inj hf
      subst hidx
      rw [show degSum (idx0 :: rest) 0 = 0 from rfl, Nat.zero_add, expHes,
        List.get?_append (by rw [expFaceHes_length]; exact hr)]
      rw [expFaceHes, List.get?_map, List.get?_range hr]
      simp
    | succ f =>
      have hds : degSum (idx0 :: rest) (f + 1) = idx0.length + degSum rest f := rfl
      rw [hds, expHes,
        List.get?_append_right (by rw [expFaceHes_length]; omega)]
      rw [expFaceHes_length,
        show idx0.length + degSum rest f + r - idx0.length = degSum rest f + r by omega]
      rw [ih (B + idx0.length) (fi + 1) f idx r (by simpa using hf) hr]
      have h1 : fi + 1 + f = fi + (f + 1) := by omega
      have h2 : B + idx0.length + degSum rest f = B + (idx0.length + degSum rest f) := by omega
      rw [h1, h2]

theorem expHes_length (B fi : Nat) :
    ∀ faces : List (List Nat), (expHes B fi faces).length = degSum faces faces.length := by
  intro faces
  induction faces generalizing B fi with
  | nil => rfl
  | cons idx rest ih =>
    rw [expHes, List.length_append, expFaceHes_length, ih (B + idx.length) (fi + 1)]
    rfl

theorem mkMesh_explicit {nV : Nat} {faces : List (List Nat)} {m : TMesh}
    (hm : mkMesh nV faces = some m)
    (hwf : ∀ idx ∈ faces, idx ≠ [] ∧ ∀ v ∈ idx, v < nV) :
    m = ⟨nV, linkHalfedges (insertList [] (expTable 0 faces)) (expHes 0 0 faces),
         insertList [] (expTable 0 faces), expAnchors 0 faces⟩ := by
  obtain ⟨st, hst, hmesh⟩ := mkMesh_inv hm
  rw [buildFaces_spec nV faces 0 ⟨[], [], []⟩ hwf] at hst
  rw [hmesh, ← Option.some.inj hst]
  rfl

theorem mod_succ_eq (n k : Nat) : (n % k + 1) % k = (n + 1) % k := by
  conv_rhs => rw [Nat.add_mod]
  rw [Nat.add_mod (n % k) 1 k, Nat.mod_mod_of_dvd n (dvd_refl k)]

theorem mesh_heNext {nV : Nat} {faces : List (List Nat)} {m : TMesh}
    (hm : mkMesh nV faces = some m)
    (hwf : ∀ idx ∈ faces, idx ≠ [] ∧ ∀ v ∈ idx, v < nV)
    {f r : Nat} {idx : List Nat}
    (hf : faces.get? f = some idx) (hr : r < idx.length) :
    heNext m.hes (degSum faces f + r) =
      some (degSum faces f + (r + 1) % idx.length) := by
  rw [mkMesh_explicit hm hwf]
  show ((linkHalfedges (insertList [] (expTable 0 faces)) (expHes 0 0 faces)).get?
      (degSum faces f + r)).bind HalfEdge.next = _
  rw [linkHalfedges]
  rw [bind_congr_of_map_eq HalfEdge.next
    (linkFold_next (insertList [] (expTable 0 faces)) _ (expHes 0 0 faces) _)]
  rw [expHes_get 0 0 faces f idx r hf hr]
  simp

theorem mesh_heFace {nV : Nat} {faces : List (List Nat)} {m : TMesh}
    (hm : mkMesh nV faces = some m)
    (hwf : ∀ idx ∈ faces, idx ≠ [] ∧ ∀ v ∈ idx, v < nV)
    {f r : Nat} {idx : List Nat}
    (hf : faces.get? f = some idx) (hr : r < idx.length) :
    ∃ he, m.hes.get? (degSum faces f + r) = some he ∧ he.face = f := by
  have hmap : (m.hes.get? (degSum faces f + r)).map HalfEdge.face = some f := by
    rw [mkMesh_explicit hm hwf]
    show ((linkHalfedges (insertList [] (expTable 0 faces)) (expHes 0 0 faces)).get?
        (degSum faces f + r)).map HalfEdge.face = _
    rw [linkHalfedges, linkFold_face, expHes_get 0 0 faces f idx r hf hr]
    simp
  cases hget : m.hes.get? (degSum faces f + r) with
  | none => rw [hget] at hmap; exact Option.noConfusion hmap
  | some he =>
    rw [hget, Option.map_some'] at hmap
    exact ⟨he, rfl, Option.some.inj hmap⟩

theorem mesh_walk {nV : Nat} {faces : List (List Nat)} {m : TMesh}
    (hm : mkMesh nV faces = some m)
    (hwf : ∀ idx ∈ faces, idx ≠ [] ∧ ∀ v ∈ idx, v < nV)
    {f : Nat} {idx : List Nat}
    (hf : faces.get? f = some idx) (hk : 0 < idx.length) :
    ∀ n, walkN m.hes (degSum faces f) n =
      some (degSum faces f + n % idx.length) := by
  intro n
  induction n with
  | zero =>
    rw [walkN, Nat.zero_mod, Nat.add_zero]
  | succ n ih =>
    rw [walkN, ih, Option.some_bind,
      mesh_heNext hm hwf hf (Nat.mod_lt n hk), mod_succ_eq]

/-- C2: for every mesh built from well-formed input (each face at least 3
distinct in-range indices) and every face, walking `next` from
`face.halfedge` returns to it after exactly `degree(face)` steps and not
earlier, and every visited half-edge's `face` is that face. -/
theorem c2_face_cycle {nV : Nat} {faces : List (List Nat)} {m : TMesh} {f a : Nat}
    {idx : List Nat}
    (hm : mkMesh nV faces = some m)
    (hwf : ∀ idx' ∈ faces, 3 ≤ idx'.length ∧ idx'.Nodup ∧ ∀ v ∈ idx', v < nV)
    (hf : faces.get? f = some idx)
    (ha : m.anchors.get? f = some a) :
    walkN m.hes a idx.length = some a ∧
    (∀ n, 0 < n → n < idx.length → walkN m.hes a n ≠ some a) ∧
    (∀ n ≤ idx.length, ∃ c he, walkN m.hes a n = some c ∧
      m.hes.get? c = some he ∧ he.face = f) := by
  have hwf' : ∀ idx' ∈ faces, idx' ≠ [] ∧ ∀ v ∈ idx', v < nV := fun i hi =>
    ⟨by
      have h3 := (hwf i hi).1
      intro hc
      rw [hc] at h3
      simp at h3, (hwf i hi).2.2⟩
  have hk : 0 < idx.length := by
    have := (hwf idx (List.get?_mem hf)).1
    omega
  have hflt : f < faces.length := (List.get?_eq_some.1 hf).1
  have hanch : m.anchors.get? f = some (degSum faces f) := by
    rw [mkMesh_explicit hm hwf']
    show (expAnchors 0 faces).get? f = _
    rw [expAnchors_get 0 faces f hflt, Nat.zero_add]
  have haeq : a = degSum faces f := by
    rw [ha] at hanch
    exact Option.some.inj hanch
  subst haeq
  refine ⟨?_, ?_, ?_⟩
  · rw [mesh_walk hm hwf' hf hk idx.length, Nat.mod_self, Nat.add_zero]
  · intro n hn0 hnk hc
    rw [mesh_walk hm hwf' hf hk n, Nat.mod_eq_of_lt hnk] at hc
    have := Option.some.inj hc
    omega
  · intro n _
    obtain ⟨he, hhe, hface⟩ := mesh_heFace hm hwf' hf (Nat.mod_lt n hk)
    exact ⟨degSum faces f + n % idx.length, he, mesh_walk hm hwf' hf hk n, hhe, hface⟩

theorem c2_face_cycle_witness :
    walkN tetMesh.hes 0 3 = some 0 ∧ walkN tetMesh.hes 0 1 ≠ some 0 ∧
      walkN tetMesh.hes 0 2 ≠ some 0 := by
  have h := @c2_face_cycle 4 [[0, 1, 2], [0, 2, 3], [0, 3, 1], [1, 3, 2]]
    tetMesh 0 0 [0, 1, 2]
    (by rfl) (by decide) (by rfl) (by rfl)
  exact ⟨h.1, h.2.1 1 (by decide) (by decide), h.2.1 2 (by decide) (by decide)⟩

theorem insertList_fresh : ∀ (T : List ((Nat × Nat) × Nat)) (t : HETable),
    (T.map Prod.fst).Nodup → (∀ k ∈ T.map Prod.fst, k ∉ t.map Prod.fst) →
    insertList t T = t ++ T := by
  intro T
  induction T with
  | nil => intro t _ _; simp [insertList]
  | cons e rest ih =>
    intro t hnd hfresh
    simp only [List.map_cons, List.nodup_cons] at hnd
    rw [insertList, insertKey_of_fresh (hfresh e.1 (by simp)),
      ih (t ++ [(e.1, e.2)]) hnd.2 ?fresh]
    · simp
    case fresh =>
      intro k hk hmem
      rw [List.map_append] at hmem
      rcases List.mem_append.1 hmem with hmem' | hmem'
      · exact hfresh k (by simp [hk]) hmem'
      · simp only [List.map_cons, List.map_nil, List.mem_singleton] at hmem'
        exact hnd.1 (hmem' ▸ hk)

theorem expTable_keys : ∀ (faces : List (List Nat)) (B : Nat),
    (expTable B faces).map Prod.fst = allKeys faces := by
  intro faces
  induction faces with
  | nil => intro B; rfl
  | cons idx rest ih =>
    intro B
    rw [expTable, List.map_append, ih (B + idx.length)]
    rw [show (expFaceTable B idx).map Prod.fst = faceKeys idx from by
      rw [expFaceTable, faceKeys, List.map_map]
      rfl]
    rfl

theorem mesh_table {nV : Nat} {faces : List (List Nat)} {m : TMesh}
    (hm : mkMesh nV faces = some m)
    (hwf' : ∀ idx ∈ faces, idx ≠ [] ∧ ∀ v ∈ idx, v < nV)
    (hnd : (allKeys faces).Nodup) :
    m.table = expTable 0 faces := by
  rw [mkMesh_explicit hm hwf']
  show insertList [] (expTable 0 faces) = expTable 0 faces
  rw [insertList_fresh (expTable 0 faces) [] (by rw [expTable_keys]; exact hnd)
    (by intro k _ hc; simp at hc)]
  rfl

theorem expTable_value_entry (B : Nat) :
    ∀ (faces : List (List Nat)) (f : Nat) (idx : List Nat) (r : Nat),
      faces.get? f = some idx → r < idx.length →
      ((idx.getD r 0, idx.getD ((r + 1) % idx.length) 0), B + (degSum faces f + r)) ∈
        expTable B faces := by
  intro faces
  induction faces generalizing B with
  | nil => intro f idx r hf; simp at hf
  | cons idx0 rest ih =>
    intro f idx r hf hr
    cases f with
    | zero =>
      have hidx : idx0 = idx := Option.some.inj hf
      subst hidx
      rw [expTable]
      refine List.mem_append.2 (Or.inl ?_)
      rw [expFaceTable]
      refine List.mem_map.2 ⟨r, List.mem_range.2 hr, ?_⟩
      rw [show degSum (idx0 :: rest) 0 + r = r from by rw [show degSum (idx0 :: rest) 0 = 0 from rfl]; omega]
    | succ f =>
      rw [expTable]
      refine List.mem_append.2 (Or.inr ?_)
      have := ih (B + idx0.length) f idx r (by simpa using hf) hr
      rw [show B + (degSum (idx0 :: rest) (f + 1) + r) =
        B + idx0.length + (degSum rest f + r) from by
          rw [show degSum (idx0 :: rest) (f + 1) = idx0.length + degSum rest f from rfl]
          omega]
      exact this

theorem expTable_mem_inv (B : Nat) :
    ∀ (faces : List (List Nat)) (e : (Nat × Nat) × Nat), e ∈ expTable B faces →
      ∃ f idx r, faces.get? f = some idx ∧ r < idx.length ∧
        e.2 = B + (degSum faces f + r) := by
  intro faces
  induction faces generalizing B with
  | nil => intro e he; simp [expTable] at he
  | cons idx0 rest ih =>
    intro e he
    rw [expTable] at he
    rcases List.mem_append.1 he with hm | hm
    · rw [expFaceTable] at hm
      obtain ⟨r, hr, hre⟩ := List.mem_map.1 hm
      refine ⟨0, idx0, r, rfl, List.mem_range.1 hr, ?_⟩
      rw [← hre]
      rw [show degSum (idx0 :: rest) 0 = 0 from rfl]
      omega
    · obtain ⟨f, idx, r, hf, hr, hv⟩ := ih (B + idx0.length) e hm
      refine ⟨f + 1, idx, r, by simpa using hf, hr, ?_⟩
      rw [hv, show degSum (idx0 :: rest) (f + 1) = idx0.length + degSum rest f from rfl]
      omega

theorem id_decomp : ∀ (faces : List (List Nat)) (i : Nat),
    i < degSum faces faces.length →
    ∃ f idx r, faces.get? f = some idx ∧ r < idx.length ∧ i = degSum faces f + r := by
  intro faces
  induction faces with
  | nil => intro i hi; simp [degSum] at hi
  | cons idx0 rest ih =>
    intro i hi
    rw [show degSum (idx0 :: rest) (idx0 :: rest).length =
      idx0.length + degSum rest rest.length from rfl] at hi
    by_cases hlt : i < idx0.length
    · exact ⟨0, idx0, i, rfl, hlt, by rw [show degSum (idx0 :: rest) 0 = 0 from rfl]; omega⟩
    · obtain ⟨f, idx, r, hf, hr, hv⟩ := ih (i - idx0.length) (by omega)
      refine ⟨f + 1, idx, r, by simpa using hf, hr, ?_⟩
      rw [show degSum (idx0 :: rest) (f + 1) = idx0.length + degSum rest f from rfl]
      omega

theorem degSum_le : ∀ (faces : List (List Nat)) (f f' : Nat) (idx : List Nat),
    faces.get? f = some idx → f < f' →
    degSum faces f + idx.length ≤ degSum faces f' := by
  intro faces
  induction faces with
  | nil => intro f f' idx hf; simp at hf
  | cons idx0 rest ih =>
    intro f f' idx hf hff
    cases f with
    | zero =>
      have hidx : idx0 = idx := Option.some.inj hf
      subst hidx
      obtain ⟨g, rfl⟩ : ∃ g, f' = g + 1 := ⟨f' - 1, by omega⟩
      rw [show degSum (idx0 :: rest) 0 = 0 from rfl,
        show degSum (idx0 :: rest) (g + 1) = idx0.length + degSum rest g from rfl]
      omega
    | succ f =>
      obtain ⟨g, rfl⟩ : ∃ g, f' = g + 1 := ⟨f' - 1, by omega⟩
      have := ih f g idx (by simpa using hf) (by omega)
      rw [show degSum (idx0 :: rest) (f + 1) = idx0.length + degSum rest f from rfl,
        show degSum (idx0 :: rest) (g + 1) = idx0.length + degSum rest g from rfl]
      omega

theorem degSum_lt_total : ∀ (faces : List (List Nat)) (f : Nat) (idx : List Nat),
    faces.get? f = some idx →
    degSum faces f + idx.length ≤ degSum faces faces.length := by
  intro faces f idx hf
  have hflt : f < faces.length := (List.get?_eq_some.1 hf).1
  exact degSum_le faces f faces.length idx hf hflt

theorem block_disjoint {faces : List (List Nat)} {f1 f2 : Nat} {idx1 idx2 : List Nat}
    (h1 : faces.get? f1 = some idx1) (h2 : faces.get? f2 = some idx2)
    {x1 x2 : Nat} (hx1 : x1 < idx1.length) (hx2 : x2 < idx2.length)
    (heq : degSum faces f1 + x1 = degSum faces f2 + x2) : f1 = f2 := by
  rcases Nat.lt_trichotomy f1 f2 with hlt | heqf | hlt
  · have := degSum_le faces f1 f2 idx1 h1 hlt
    omega
  · exact heqf
  · have := degSum_le faces f2 f1 idx2 h2 hlt
    omega

theorem mod_succ_inj {r1 r2 k : Nat} (h1 : r1 < k) (h2 : r2 < k)
    (h : (r1 + 1) % k = (r2 + 1) % k) : r1 = r2 := by
  by_cases hc1 : r1 + 1 < k
  · by_cases hc2 : r2 + 1 < k
    · rw [Nat.mod_eq_of_lt hc1, Nat.mod_eq_of_lt hc2] at h
      omega
    · have hk2 : r2 + 1 = k := by omega
      rw [Nat.mod_eq_of_lt hc1, hk2, Nat.mod_self] at h
      omega
  · have hk1 : r1 + 1 = k := by omega
    by_cases hc2 : r2 + 1 < k
    · rw [hk1, Nat.mod_self, Nat.mod_eq_of_lt hc2] at h
      omega
    · omega

/-- C3: after construction on well-formed input, every half-edge has a
non-null `next`, and `he.next.prev == he` for every half-edge: the
prev-linking pass of `link_halfedges` covers every created half-edge. -/
theorem c3_next_prev {nV : Nat} {faces : List (List Nat)} {m : TMesh}
    (hm : mkMesh nV faces = some m) (hwf : wellFormed nV faces) :
    ∀ i he, m.hes.get? i = some he →
      he.next.isSome = true ∧
      ∀ p, he.next = some p →
        ∃ he', m.hes.get? p = some he' ∧ he'.prev = some i := by
  obtain ⟨hwfF, hknd⟩ := hwf
  have hwf' : ∀ idx ∈ faces, idx ≠ [] ∧ ∀ v ∈ idx, v < nV := fun ix hix =>
    ⟨by
      have h3 := (hwfF ix hix).1
      intro hc
      rw [hc] at h3
      simp at h3, (hwfF ix hix).2.2⟩
  have hTeq : insertList [] (expTable 0 faces) = expTable 0 faces := by
    rw [insertList_fresh (expTable 0 faces) [] (by rw [expTable_keys]; exact hknd)
      (by intro k _ hc; simp at hc)]
    rfl
  have hmh : m.hes =
      (expTable 0 faces).foldl (linkStep (expTable 0 faces)) (expHes 0 0 faces) := by
    rw [mkMesh_explicit hm hwf']
    show linkHalfedges (insertList [] (expTable 0 faces)) (expHes 0 0 faces) = _
    rw [hTeq]
    rfl
  intro i he hhe
  have hilt : i < (expHes 0 0 faces).length := by
    have h1 := (List.get?_eq_some.1 hhe).1
    rw [hmh, linkFold_length] at h1
    exact h1
  rw [expHes_length] at hilt
  obtain ⟨f, idx, r, hf, hr, hieq⟩ := id_decomp faces i hilt
  have hgetE : (expHes 0 0 faces).get? i =
      some ⟨idx.getD ((r + 1) % idx.length) 0, f,
            some (degSum faces f + (r + 1) % idx.length), none, none⟩ := by
    rw [hieq, expHes_get 0 0 faces f idx r hf hr]
    simp
  have hnexteq : he.next = some (degSum faces f + (r + 1) % idx.length) := by
    have hmap : (m.hes.get? i).map HalfEdge.next =
        ((expHes 0 0 faces).get? i).map HalfEdge.next := by
      rw [hmh, linkFold_next]
    rw [hhe, hgetE] at hmap
    exact Option.some.inj hmap
  refine ⟨by rw [hnexteq]; rfl, ?_⟩
  intro p hp
  have hpeq : p = degSum faces f + (r + 1) % idx.length := by
    rw [hnexteq] at hp
    exact (Option.some.inj hp).symm
  subst hpeq
  have hk : 0 < idx.length := by omega
  have hplt : degSum faces f + (r + 1) % idx.length < (expHes 0 0 faces).length := by
    rw [expHes_length]
    have h1 : (r + 1) % idx.length < idx.length := Nat.mod_lt _ hk
    have h2 := degSum_lt_total faces f idx hf
    omega
  have hentry : ((idx.getD r 0, idx.getD ((r + 1) % idx.length) 0), i) ∈
      expTable 0 faces := by
    have := expTable_value_entry 0 faces f idx r hf hr
    rw [show (0 : Nat) + (degSum faces f + r) = degSum faces f + r from by omega] at this
    rw [hieq]
    exact this
  have hmemval : i ∈ (expTable 0 faces).map Prod.snd :=
    List.mem_map.2 ⟨_, hentry, rfl⟩
  have hbindE : ((expHes 0 0 faces).get? i).bind HalfEdge.next =
      some (degSum faces f + (r + 1) % idx.length) := by
    rw [hgetE]
    rfl
  have huniq : ∀ e ∈ expTable 0 faces,
      ((expHes 0 0 faces).get? e.2).bind HalfEdge.next =
        some (degSum faces f + (r + 1) % idx.length) → e.2 = i := by
    intro e hemem hen
    obtain ⟨f2, idx2, r2, hf2, hr2, hv2⟩ := expTable_mem_inv 0 faces e hemem
    rw [show (0 : Nat) + (degSum faces f2 + r2) = degSum faces f2 + r2 from by omega] at hv2
    have hget2 : (expHes 0 0 faces).get? e.2 =
        some ⟨idx2.getD ((r2 + 1) % idx2.length) 0, f2,
              some (degSum faces f2 + (r2 + 1) % idx2.length), none, none⟩ := by
      rw [hv2, expHes_get 0 0 faces f2 idx2 r2 hf2 hr2]
      simp
    rw [hget2] at hen
    have heq2 : degSum faces f2 + (r2 + 1) % idx2.length =
        degSum faces f + (r + 1) % idx.length := Option.some.inj hen
    have hk2 : 0 < idx2.length := by omega
    have hfe : f2 = f := block_disjoint hf2 hf
      (Nat.mod_lt _ hk2) (Nat.mod_lt _ hk) heq2
    subst hfe
    have hidxeq : idx2 = idx := Option.some.inj (hf2.symm.trans hf)
    subst hidxeq
    have hre : r2 = r := mod_succ_inj hr2 hr (by omega)
    rw [hv2, hre, hieq]
  have hprev := linkFold_prev_write (expTable 0 faces) (expTable 0 faces)
    (expHes 0 0 faces) i (degSum faces f + (r + 1) % idx.length)
    hmemval hbindE huniq hplt
  rw [← hmh] at hprev
  cases hget : m.hes.get? (degSum faces f + (r + 1) % idx.length) with
  | none => rw [hget] at hprev; exact Option.noConfusion hprev
  | some he' =>
    rw [hget, Option.map_some'] at hprev
    exact ⟨he', rfl, Option.some.inj hprev⟩

theorem c3_next_prev_witness :
    ∃ he', tetMesh.hes.get? 1 = some he' ∧ he'.prev = some 0 := by
  have h := @c3_next_prev 4 [[0, 1, 2], [0, 2, 3], [0, 3, 1], [1, 3, 2]]
    tetMesh (by rfl) (by constructor <;> decide) 0
    ⟨1, 0, some 1, some 2, some 8⟩ (by rfl)
  exact h.2 1 rfl

/-- C4 concrete evaluation: the constructor accepts a 2-vertex face without
any failure and produces a fully linked, usable mesh (both half-edges are
twins of each other and `get_all_edges` works), while an out-of-range
vertex index does fail fast.  This contradicts the spec's requirement that
a face with fewer than 3 vertices fail fast at construction. -/
theorem c4_short_face_accepted :
    (mkMesh 2 [[0, 1]]).isSome = true ∧
    mkMesh 2 [[0, 1]] = some ⟨2,
      [⟨1, 0, some 1, some 1, some 1⟩, ⟨0, 0, some 0, some 0, some 0⟩],
      [((0, 1), 0), ((1, 0), 1)], [0]⟩ ∧
    (∀ i < 2, ((((mkMesh 2 [[0, 1]]).getD ⟨0, [], [], []⟩).hes.get? i).bind
        HalfEdge.opposite).isSome = true) ∧
    (getAllEdges ((mkMesh 2 [[0, 1]]).getD ⟨0, [], [], []⟩)).map List.length = some 1 ∧
    mkMesh 2 [[0, 1, 5]] = none := by
  decide

/-- C9: `get_all_vertices` returns the input positions, index-aligned and
unreordered. -/
theorem c9_vertices_passthrough (input : List Point) :
    (getAllVertices (mkVertices input)).length = input.length ∧
    ∀ i, (getAllVertices (mkVertices input)).get? i = input.get? i := by
  have hid : getAllVertices (mkVertices input) = input := by
    rw [getAllVertices, mkVertices, List.map_map]
    exact List.map_id input
  rw [hid]
  exact ⟨rfl, fun _ => rfl⟩

theorem c9_vertices_passthrough_witness :
    (getAllVertices (mkVertices [((0 : ℝ), (0 : ℝ), (0 : ℝ)), (1, 2, 3)])).length = 2 ∧
    (getAllVertices (mkVertices [((0 : ℝ), (0 : ℝ), (0 : ℝ)), (1, 2, 3)])).get? 1 =
      some (1, 2, 3) :=
  ⟨(c9_vertices_passthrough _).1,
   ((c9_vertices_passthrough _).2 1).trans rfl⟩

theorem mesh_he_fields {nV : Nat} {faces : List (List Nat)} {m : TMesh}
    (hm : mkMesh nV faces = some m)
    (hwf' : ∀ idx ∈ faces, idx ≠ [] ∧ ∀ v ∈ idx, v < nV)
    {f r : Nat} {idx : List Nat}
    (hf : faces.get? f = some idx) (hr : r < idx.length) :
    ∃ he, m.hes.get? (degSum faces f + r) = some he ∧
      he.vertex = idx.getD ((r + 1) % idx.length) 0 ∧
      he.next = some (degSum faces f + (r + 1) % idx.length) ∧
      he.face = f := by
  have hmh : m.hes = linkHalfedges (insertList [] (expTable 0 faces)) (expHes 0 0 faces) := by
    rw [mkMesh_explicit hm hwf']
  have hgetE : (expHes 0 0 faces).get? (degSum faces f + r) =
      some ⟨idx.getD ((r + 1) % idx.length) 0, f,
            some (degSum faces f + (r + 1) % idx.length), none, none⟩ := by
    rw [expHes_get 0 0 faces f idx r hf hr]
    simp
  have hv : (m.hes.get? (degSum faces f + r)).map HalfEdge.vertex =
      some (idx.getD ((r + 1) % idx.length) 0) := by
    rw [hmh, linkHalfedges, linkFold_vertex, hgetE]
    rfl
  have hn : (m.hes.get? (degSum faces f + r)).map HalfEdge.next =
      some (some (degSum faces f + (r + 1) % idx.length)) := by
    rw [hmh, linkHalfedges, linkFold_next, hgetE]
    rfl
  have hfc : (m.hes.get? (degSum faces f + r)).map HalfEdge.face = some f := by
    rw [hmh, linkHalfedges, linkFold_face, hgetE]
    rfl
  cases hget : m.hes.get? (degSum faces f + r) with
  | none => rw [hget] at hv; exact Option.noConfusion hv
  | some he =>
    rw [hget, Option.map_some'] at hv hn hfc
    exact ⟨he, rfl, Option.some.inj hv, Option.some.inj hn, Option.some.inj hfc⟩

/-- C8: `normal()` of any constructed face takes
`v1 = he.vertex`, `v2 = he.next.vertex`, `v3 = he.next.next.vertex` at the
anchor, and returns the normalised cross product of `v2 - v1` and
`v3 - v1` (the unnormalised zero vector in the degenerate case); on the
unit triangle `A=(0,0,0), B=(1,0,0), C=(0,1,0)` wound A→B→C it yields
`(0, 0, 1)`, and on a collinear triangle the zero vector. -/
theorem c8_face_normal :
    (∀ (nV : Nat) (faces : List (List Nat)) (m : TMesh) (verts : List Point)
        (f a : Nat) (idx : List Nat) (p1 p2 p3 : Point),
      mkMesh nV faces = some m →
      (∀ idx' ∈ faces, idx' ≠ [] ∧ ∀ v ∈ idx', v < nV) →
      faces.get? f = some idx → 3 ≤ idx.length →
      m.anchors.get? f = some a →
      verts.get? (idx.getD 1 0) = some p1 →
      verts.get? (idx.getD 2 0) = some p2 →
      verts.get? (idx.getD (3 % idx.length) 0) = some p3 →
      faceNormal verts m.hes a =
        some (normOrZero (cross3 (sub3 p2 p1) (sub3 p3 p1)))) ∧
    faceNormal [((0 : ℝ), (0 : ℝ), (0 : ℝ)), (1, 0, 0), (0, 1, 0)]
      ((mkMesh 3 [[0, 1, 2]]).getD ⟨0, [], [], []⟩).hes 0 = some (0, 0, 1) ∧
    faceNormal [((0 : ℝ), (0 : ℝ), (0 : ℝ)), (1, 0, 0), (2, 0, 0)]
      ((mkMesh 3 [[0, 1, 2]]).getD ⟨0, [], [], []⟩).hes 0 = some (0, 0, 0) := by
  have hgen : ∀ (nV : Nat) (faces : List (List Nat)) (m : TMesh) (verts : List Point)
      (f a : Nat) (idx : List Nat) (p1 p2 p3 : Point),
      mkMesh nV faces = some m →
      (∀ idx' ∈ faces, idx' ≠ [] ∧ ∀ v ∈ idx', v < nV) →
      faces.get? f = some idx → 3 ≤ idx.length →
      m.anchors.get? f = some a →
      verts.get? (idx.getD 1 0) = some p1 →
      verts.get? (idx.getD 2 0) = some p2 →
      verts.get? (idx.getD (3 % idx.length) 0) = some p3 →
      faceNormal verts m.hes a =
        some (normOrZero (cross3 (sub3 p2 p1) (sub3 p3 p1))) := by
    intro nV faces m verts f a idx p1 p2 p3 hm hwf' hf h3 ha hp1 hp2 hp3
    have hflt : f < faces.length := (List.get?_eq_some.1 hf).1
    have haeq : a = degSum faces f := by
      have hanch : m.anchors.get? f = some (degSum faces f) := by
        rw [mkMesh_explicit hm hwf']
        show (expAnchors 0 faces).get? f = _
        rw [expAnchors_get 0 faces f hflt, Nat.zero_add]
      rw [ha] at hanch
      exact Option.some.inj hanch
    subst haeq
    have h10 : (0 + 1) % idx.length = 1 := by
      rw [Nat.zero_add, Nat.mod_eq_of_lt (by omega)]
    have h21 : (1 + 1) % idx.length = 2 := Nat.mod_eq_of_lt (by omega)
    obtain ⟨he1, hg1, hv1, hn1, _⟩ := mesh_he_fields hm hwf' hf
      (show 0 < idx.length by omega)
    obtain ⟨he2, hg2, hv2, hn2, _⟩ := mesh_he_fields hm hwf' hf
      (show 1 < idx.length by omega)
    obtain ⟨he3, hg3, hv3, _, _⟩ := mesh_he_fields hm hwf' hf
      (show 2 < idx.length by omega)
    rw [h10] at hv1 hn1
    rw [h21] at hv2 hn2
    rw [show (2 + 1) % idx.length = 3 % idx.length from rfl] at hv3
    rw [faceNormal, Nat.add_zero] at *
    rw [hg1, Option.some_bind, hn1, Option.some_bind, hg2, Option.some_bind,
      hn2, Option.some_bind, hg3, Option.some_bind,
      hv1, hp1, Option.some_bind, hv2, hp2, Option.some_bind,
      hv3, hp3, Option.some_bind]
  refine ⟨hgen, ?_, ?_⟩
  · rw [hgen 3 [[0, 1, 2]] ((mkMesh 3 [[0, 1, 2]]).getD ⟨0, [], [], []⟩)
      [((0 : ℝ), (0 : ℝ), (0 : ℝ)), (1, 0, 0), (0, 1, 0)] 0 0 [0, 1, 2]
      (1, 0, 0) (0, 1, 0) (0, 0, 0)
      (by rfl) (by decide) (by rfl) (by decide) (by rfl) (by rfl) (by rfl) (by rfl)]
    have hcross : cross3 (sub3 ((0 : ℝ), (1 : ℝ), (0 : ℝ)) (1, 0, 0))
        (sub3 (0, 0, 0) (1, 0, 0)) = ((0 : ℝ), (0 : ℝ), (1 : ℝ)) := by
      rw [sub3, sub3, cross3]
      norm_num
    rw [hcross]
    have hnorm : norm3 ((0 : ℝ), (0 : ℝ), (1 : ℝ)) = 1 := by
      rw [norm3]
      norm_num
    rw [normOrZero, hnorm, if_neg one_ne_zero, div3]
    norm_num
  · rw [hgen 3 [[0, 1, 2]] ((mkMesh 3 [[0, 1, 2]]).getD ⟨0, [], [], []⟩)
      [((0 : ℝ), (0 : ℝ), (0 : ℝ)), (1, 0, 0), (2, 0, 0)] 0 0 [0, 1, 2]
      (1, 0, 0) (2, 0, 0) (0, 0, 0)
      (by rfl) (by decide) (by rfl) (by decide) (by rfl) (by rfl) (by rfl) (by rfl)]
    have hcross : cross3 (sub3 ((2 : ℝ), (0 : ℝ), (0 : ℝ)) (1, 0, 0))
        (sub3 (0, 0, 0) (1, 0, 0)) = ((0 : ℝ), (0 : ℝ), (0 : ℝ)) := by
      rw [sub3, sub3, cross3]
      norm_num
    rw [hcross]
    have hnorm : norm3 ((0 : ℝ), (0 : ℝ), (0 : ℝ)) = 0 := by
      rw [norm3]
      norm_num
    rw [normOrZero, hnorm, if_pos rfl]

/-- Vertex positions of the unit square centered at the origin in the z=0
plane, listed counterclockwise as seen from +z. -/
noncomputable def sqVerts : List Point :=
  [(-(1 : ℝ) / 2, -(1 : ℝ) / 2, (0 : ℝ)), (1 / 2, -1 / 2, 0), (1 / 2, 1 / 2, 0),
   (-1 / 2, 1 / 2, 0)]

theorem c8_face_normal_witness :
    faceNormal sqVerts quadMesh.hes 0 = some (0, 0, 1) := by
  rw [c8_face_normal.1 4 [[0, 1, 2, 3]] quadMesh sqVerts 0 0 [0, 1, 2, 3]
    ((1 : ℝ) / 2, -(1 : ℝ) / 2, (0 : ℝ)) ((1 : ℝ) / 2, (1 : ℝ) / 2, (0 : ℝ))
    (-(1 : ℝ) / 2, (1 : ℝ) / 2, (0 : ℝ))
    (by rfl) (by decide) (by rfl) (by decide) (by rfl) (by rfl) (by rfl) (by rfl)]
  have hcross : cross3
      (sub3 ((1 : ℝ) / 2, (1 : ℝ) / 2, (0 : ℝ)) ((1 : ℝ) / 2, -(1 : ℝ) / 2, (0 : ℝ)))
      (sub3 (-(1 : ℝ) / 2, (1 : ℝ) / 2, (0 : ℝ)) ((1 : ℝ) / 2, -(1 : ℝ) / 2, (0 : ℝ))) =
      ((0 : ℝ), (0 : ℝ), (1 : ℝ)) := by
    rw [sub3, sub3, cross3]
    norm_num
  rw [hcross]
  have hnorm : norm3 ((0 : ℝ), (0 : ℝ), (1 : ℝ)) = 1 := by
    rw [norm3]
    norm_num
  rw [normOrZero, hnorm, if_neg one_ne_zero, div3]
  norm_num

/-- The head vertex and edge length read for one half-edge during the
`generate_next_vertex` walk. -/
noncomputable def gPair (verts : List Point) (hes : List HalfEdge) (c : Nat) :
    Option (Nat × ℝ) :=
  (hes.get? c).bind fun he =>
    (halfedgeLength verts hes c).bind fun l => some (he.vertex, l)

theorem heNext_inv {hes : List HalfEdge} {c d : Nat} (h : heNext hes c = some d) :
    ∃ he, hes.get? c = some he ∧ he.next = some d := by
  rw [heNext] at h
  cases hget : hes.get? c with
  | none => rw [hget] at h; exact Option.noConfusion h
  | some he => rw [hget, Option.some_bind] at h; exact ⟨he, rfl, h⟩

theorem omapM_none_of_mem {a b : Type} (f : a → Option b) :
    ∀ (l : List a) (x : a), x ∈ l → f x = none → omapM f l = none := by
  intro l
  induction l with
  | nil => intro x hx; simp at hx
  | cons y ys ih =>
    intro x hx hfx
    rcases List.mem_cons.1 hx with rfl | hx'
    · rw [omapM, hfx]
      rfl
    · rw [omapM, ih x hx' hfx]
      cases f y <;> rfl

theorem gnvLoop_eq (verts : List Point) (hes : List HalfEdge) (a : Nat) :
    ∀ (cyc : List Nat) (cur fuel : Nat) (vs : List Nat) (tot : ℝ) (cnt : Nat),
      nextChainB hes cur cyc a = true → a ∉ cur :: cyc →
      cyc.length + 2 ≤ fuel →
      gnvLoop verts hes a fuel cur vs tot cnt =
        (omapM (gPair verts hes) (cur :: cyc)).map (fun prs =>
          (vs ++ prs.map Prod.fst, tot + (prs.map Prod.snd).sum, cnt + prs.length)) := by
  intro cyc
  induction cyc with
  | nil =>
    intro cur fuel vs tot cnt hch hnin hfuel
    obtain ⟨he, hget, hnext⟩ := heNext_inv (by
      rw [nextChainB] at hch
      exact of_decide_eq_true hch)
    have hcur : cur ≠ a := fun hc => hnin (hc ▸ List.mem_cons_self _ _)
    obtain ⟨f1, rfl⟩ : ∃ f1, fuel = f1 + 1 := ⟨fuel - 1, by omega⟩
    rw [gnvLoop, if_neg hcur, hget, Option.some_bind]
    cases hlen : halfedgeLength verts hes cur with
    | none =>
      rw [Option.none_bind]
      rw [show omapM (gPair verts hes) [cur] = none from by
        rw [omapM, gPair, hget, Option.some_bind, hlen]
        rfl]
      rfl
    | some l =>
      rw [Option.some_bind, hnext, Option.some_bind]
      obtain ⟨f2, rfl⟩ : ∃ f2, f1 = f2 + 1 := ⟨f1 - 1, by omega⟩
      rw [gnvLoop, if_pos rfl]
      rw [show omapM (gPair verts hes) [cur] = some [(he.vertex, l)] from by
        rw [omapM, gPair, hget, Option.some_bind, hlen]
        rfl]
      simp
  | cons b rest ih =>
    intro cur fuel vs tot cnt hch hnin hfuel
    rw [nextChainB, Bool.and_eq_true] at hch
    obtain ⟨he, hget, hnext⟩ := heNext_inv (of_decide_eq_true hch.1)
    have hcur : cur ≠ a := fun hc => hnin (hc ▸ List.mem_cons_self _ _)
    obtain ⟨f1, rfl⟩ : ∃ f1, fuel = f1 + 1 := ⟨fuel - 1, by omega⟩
    rw [gnvLoop, if_neg hcur, hget, Option.some_bind]
    cases hlen : halfedgeLength verts hes cur with
    | none =>
      rw [Option.none_bind]
      rw [show omapM (gPair verts hes) (cur :: b :: rest) = none from by
        rw [omapM, gPair, hget, Option.some_bind, hlen]
        rfl]
      rfl
    | some l =>
      rw [Option.some_bind, hnext, Option.some_bind]
      have hnin' : a ∉ b :: rest := fun hc => hnin (List.mem_cons_of_mem _ hc)
      rw [ih b f1 (vs ++ [he.vertex]) (tot + l) (cnt + 1) hch.2 hnin'
        (by simp at hfuel ⊢; omega)]
      rw [show omapM (gPair verts hes) (cur :: b :: rest) =
          (omapM (gPair verts hes) (b :: rest)).map
            (fun prs => (he.vertex, l) :: prs) from by
        rw [omapM, gPair, hget, Option.some_bind, hlen]
        rfl]
      cases homap : omapM (gPair verts hes) (b :: rest) with
      | none => rfl
      | some prs =>
        simp only [Option.map_some']
        refine congrArg some ?_
        refine congrArg₂ Prod.mk ?_ (congrArg₂ Prod.mk ?_ ?_)
        · simp
        · rw [List.map_cons, List.sum_cons]
          ring
        · rw [List.length_cons]
          omega

theorem gnvLoop_none (verts : List Point) (hes : List HalfEdge) (a : Nat) :
    ∀ (cyc : List Nat) (cur : Nat),
      nextChainB hes cur cyc a = true → a ∉ cur :: cyc →
      omapM (gPair verts hes) (cur :: cyc) = none →
      ∀ (fuel : Nat) (vs : List Nat) (tot : ℝ) (cnt : Nat),
        gnvLoop verts hes a fuel cur vs tot cnt = none := by
  intro cyc
  induction cyc with
  | nil =>
    intro cur hch hnin hmap fuel vs tot cnt
    obtain ⟨he, hget, hnext⟩ := heNext_inv (by
      rw [nextChainB] at hch
      exact of_decide_eq_true hch)
    have hcur : cur ≠ a := fun hc => hnin (hc ▸ List.mem_cons_self _ _)
    have hlen : halfedgeLength verts hes cur = none := by
      rw [omapM, gPair, hget, Option.some_bind] at hmap
      cases hl : halfedgeLength verts hes cur with
      | none => rfl
      | some l => rw [hl] at hmap; exact Option.noConfusion hmap
    cases fuel with
    | zero => rfl
    | succ f =>
      rw [gnvLoop, if_neg hcur, hget, Option.some_bind, hlen]
      rfl
  | cons b rest ih =>
    intro cur hch hnin hmap fuel vs tot cnt
    rw [nextChainB, Bool.and_eq_true] at hch
    obtain ⟨he, hget, hnext⟩ := heNext_inv (of_decide_eq_true hch.1)
    have hcur : cur ≠ a := fun hc => hnin (hc ▸ List.mem_cons_self _ _)
    cases fuel with
    | zero => rfl
    | succ f =>
      rw [gnvLoop, if_neg hcur, hget, Option.some_bind]
      cases hlen : halfedgeLength verts hes cur with
      | none => rfl
      | some l =>
        rw [Option.some_bind, hnext, Option.some_bind]
        have hmap' : omapM (gPair verts hes) (b :: rest) = none := by
          rw [omapM, gPair, hget, Option.some_bind, hlen, Option.some_bind] at hmap
          cases hm : omapM (gPair verts hes) (b :: rest) with
          | none => rfl
          | some prs => rw [hm] at hmap; exact Option.noConfusion hmap
        exact ih b hch.2 (fun hc => hnin (List.mem_cons_of_mem _ hc)) hmap' f _ _ _

/-- C5 (amended): for a face anchor `a` whose boundary cycle
`a :: cyc` consists of half-edges that all have a twin (so every
`length()` call succeeds, yielding the pair list `prs` of heads and
lengths), `generate_next_vertex` walks the cycle once and returns
`center - normal * avg_length`: the centroid of the boundary vertex
positions minus the face normal scaled by total length over edge count. -/
theorem c5_generate_next_vertex {verts : List Point} {hes : List HalfEdge} {a : Nat}
    {cyc : List Nat} {prs : List (Nat × ℝ)} {ps : List Point} {nrm : Point} {fuel : Nat}
    (hch : nextChainB hes a cyc a = true)
    (hnin : a ∉ cyc)
    (hfuel : cyc.length + 2 ≤ fuel)
    (hprs : omapM (gPair verts hes) (a :: cyc) = some prs)
    (hps : omapM verts.get? (prs.map Prod.fst) = some ps)
    (hnrm : faceNormal verts hes a = some nrm) :
    generateNextVertex verts hes a fuel =
      some (sub3 (centerOf ps)
        (smul3 ((prs.map Prod.snd).sum / (prs.length : ℝ)) nrm)) := by
  rw [omapM] at hprs
  cases hga : gPair verts hes a with
  | none => rw [hga, Option.none_bind] at hprs; exact Option.noConfusion hprs
  | some y0 =>
    rw [hga, Option.some_bind] at hprs
    cases hmc : omapM (gPair verts hes) cyc with
    | none => rw [hmc] at hprs; exact Option.noConfusion hprs
    | some prs' =>
      rw [hmc, Option.map_some'] at hprs
      have hprseq : prs = y0 :: prs' := (Option.some.inj hprs).symm
      rw [gPair] at hga
      cases hget0 : hes.get? a with
      | none => rw [hget0, Option.none_bind] at hga; exact Option.noConfusion hga
      | some he0 =>
        rw [hget0, Option.some_bind] at hga
        cases hlen0 : halfedgeLength verts hes a with
        | none => rw [hlen0, Option.none_bind] at hga; exact Option.noConfusion hga
        | some l0 =>
          rw [hlen0, Option.some_bind] at hga
          have hy0 : y0 = (he0.vertex, l0) := (Option.some.inj hga).symm
          subst hy0
          subst hprseq
          cases cyc with
          | nil =>
            obtain ⟨he0', hget0', hnext0⟩ := @heNext_inv hes a a (by
              rw [nextChainB] at hch
              exact of_decide_eq_true hch)
            have hee : he0' = he0 := by
              rw [hget0] at hget0'
              exact (Option.some.inj hget0').symm
            have hnext0b : he0.next = some a := by
              rw [← hee]
              exact hnext0
            rw [omapM] at hmc
            have hprs'nil : prs' = [] := (Option.some.inj hmc).symm
            subst hprs'nil
            obtain ⟨f1, rfl⟩ : ∃ f1, fuel = f1 + 1 := ⟨fuel - 1, by omega⟩
            obtain ⟨f2, rfl⟩ : ∃ f2, f1 = f2 + 1 := ⟨f1 - 1, by omega⟩
            rw [generateNextVertex, hget0, Option.some_bind, hlen0, Option.some_bind,
              hnext0b, Option.some_bind, gnvLoop, if_pos rfl, Option.some_bind]
            have hsh : ([he0.vertex] : List Nat) = [(he0.vertex, l0)].map Prod.fst := rfl
            rw [hsh, hps, Option.some_bind, hnrm, Option.some_bind]
            refine congrArg some (congrArg (sub3 (centerOf ps)) ?_)
            refine congrArg₂ smul3 ?_ rfl
            dsimp only
            simp only [List.map_cons, List.map_nil, List.sum_cons, List.sum_nil,
              List.length_cons, List.length_nil]
            norm_num
          | cons c1 rest =>
            rw [nextChainB, Bool.and_eq_true] at hch
            obtain ⟨he0', hget0', hnext0⟩ := heNext_inv (of_decide_eq_true hch.1)
            have hee : he0' = he0 := by
              rw [hget0] at hget0'
              exact (Option.some.inj hget0').symm
            have hnext0b : he0.next = some c1 := by
              rw [← hee]
              exact hnext0
            rw [generateNextVertex, hget0, Option.some_bind, hlen0, Option.some_bind,
              hnext0b, Option.some_bind]
            rw [gnvLoop_eq verts hes a rest c1 fuel [he0.vertex] l0 1 hch.2
              hnin (by simp at hfuel ⊢; omega)]
            rw [show (c1 :: rest) = (c1 :: rest) from rfl, hmc, Option.map_some',
              Option.some_bind]
            have hfst : [he0.vertex] ++ prs'.map Prod.fst =
                ((he0.vertex, l0) :: prs').map Prod.fst := by
              simp
            rw [hfst, hps, Option.some_bind, hnrm, Option.some_bind]
            refine congrArg some (congrArg (sub3 (centerOf ps)) ?_)
            refine congrArg₂ smul3 ?_ rfl
            dsimp only
            simp only [List.map_cons, List.sum_cons, List.length_cons]
            rw [Nat.add_comm 1 prs'.length]

/-- C5 counterexample: on the mesh consisting of a single unit square face
in the z=0 plane centered at the origin (the claim's own instance), every
half-edge is a boundary edge, so the very first `length()` call inside
`generate_next_vertex` dereferences an absent `opposite` and the call
fails instead of returning `center - normal * avg_length`. -/
theorem c5_single_square_counterexample :
    (mkMesh 4 [[0, 1, 2, 3]]).isSome = true ∧
    generateNextVertex sqVerts quadMesh.hes 0 6 = none := by
  constructor
  · decide
  · rfl

theorem norm3_unit_x : norm3 (sub3 ((1 : ℝ) / 2, -(1 : ℝ) / 2, (0 : ℝ))
    (-(1 : ℝ) / 2, -(1 : ℝ) / 2, (0 : ℝ))) = 1 := by
  rw [sub3, norm3]
  norm_num

theorem norm3_unit_y : norm3 (sub3 ((1 : ℝ) / 2, (1 : ℝ) / 2, (0 : ℝ))
    ((1 : ℝ) / 2, -(1 : ℝ) / 2, (0 : ℝ))) = 1 := by
  rw [sub3, norm3]
  norm_num

theorem norm3_unit_negx : norm3 (sub3 (-(1 : ℝ) / 2, (1 : ℝ) / 2, (0 : ℝ))
    ((1 : ℝ) / 2, (1 : ℝ) / 2, (0 : ℝ))) = 1 := by
  rw [sub3, norm3]
  norm_num

theorem norm3_unit_negy : norm3 (sub3 (-(1 : ℝ) / 2, -(1 : ℝ) / 2, (0 : ℝ))
    (-(1 : ℝ) / 2, (1 : ℝ) / 2, (0 : ℝ))) = 1 := by
  rw [sub3, norm3]
  norm_num

theorem sq2_len0 : halfedgeLength sqVerts squareMesh2.hes 0 = some 1 := by
  rw [show halfedgeLength sqVerts squareMesh2.hes 0 =
    some (norm3 (sub3 ((1 : ℝ) / 2, -(1 : ℝ) / 2, (0 : ℝ))
      (-(1 : ℝ) / 2, -(1 : ℝ) / 2, (0 : ℝ)))) from rfl, norm3_unit_x]

theorem sq2_len1 : halfedgeLength sqVerts squareMesh2.hes 1 = some 1 := by
  rw [show halfedgeLength sqVerts squareMesh2.hes 1 =
    some (norm3 (sub3 ((1 : ℝ) / 2, (1 : ℝ) / 2, (0 : ℝ))
      ((1 : ℝ) / 2, -(1 : ℝ) / 2, (0 : ℝ)))) from rfl, norm3_unit_y]

theorem sq2_len2 : halfedgeLength sqVerts squareMesh2.hes 2 = some 1 := by
  rw [show halfedgeLength sqVerts squareMesh2.hes 2 =
    some (norm3 (sub3 (-(1 : ℝ) / 2, (1 : ℝ) / 2, (0 : ℝ))
      ((1 : ℝ) / 2, (1 : ℝ) / 2, (0 : ℝ)))) from rfl, norm3_unit_negx]

theorem sq2_len3 : halfedgeLength sqVerts squareMesh2.hes 3 = some 1 := by
  rw [show halfedgeLength sqVerts squareMesh2.hes 3 =
    some (norm3 (sub3 (-(1 : ℝ) / 2, -(1 : ℝ) / 2, (0 : ℝ))
      (-(1 : ℝ) / 2, (1 : ℝ) / 2, (0 : ℝ)))) from rfl, norm3_unit_negy]

theorem sq2_normal : faceNormal sqVerts squareMesh2.hes 0 = some (0, 0, 1) := by
  rw [show faceNormal sqVerts squareMesh2.hes 0 =
    some (normOrZero (cross3
      (sub3 ((1 : ℝ) / 2, (1 : ℝ) / 2, (0 : ℝ)) ((1 : ℝ) / 2, -(1 : ℝ) / 2, (0 : ℝ)))
      (sub3 (-(1 : ℝ) / 2, (1 : ℝ) / 2, (0 : ℝ)) ((1 : ℝ) / 2, -(1 : ℝ) / 2, (0 : ℝ))))) from rfl]
  have hcross : cross3
      (sub3 ((1 : ℝ) / 2, (1 : ℝ) / 2, (0 : ℝ)) ((1 : ℝ) / 2, -(1 : ℝ) / 2, (0 : ℝ)))
      (sub3 (-(1 : ℝ) / 2, (1 : ℝ) / 2, (0 : ℝ)) ((1 : ℝ) / 2, -(1 : ℝ) / 2, (0 : ℝ))) =
      ((0 : ℝ), (0 : ℝ), (1 : ℝ)) := by
    rw [sub3, sub3, cross3]
    norm_num
  rw [hcross]
  have hnorm : norm3 ((0 : ℝ), (0 : ℝ), (1 : ℝ)) = 1 := by
    rw [norm3]
    norm_num
  rw [normOrZero, hnorm, if_neg one_ne_zero, div3]
  norm_num

theorem c5_generate_next_vertex_witness :
    generateNextVertex sqVerts squareMesh2.hes 0 6 = some (0, 0, -1) := by
  have hg0 : gPair sqVerts squareMesh2.hes 0 = some (1, 1) := by
    rw [gPair, show squareMesh2.hes.get? 0 = some ⟨1, 0, some 1, some 3, some 7⟩ from rfl,
      Option.some_bind, sq2_len0, Option.some_bind]
  have hg1 : gPair sqVerts squareMesh2.hes 1 = some (2, 1) := by
    rw [gPair, show squareMesh2.hes.get? 1 = some ⟨2, 0, some 2, some 0, some 6⟩ from rfl,
      Option.some_bind, sq2_len1, Option.some_bind]
  have hg2 : gPair sqVerts squareMesh2.hes 2 = some (3, 1) := by
    rw [gPair, show squareMesh2.hes.get? 2 = some ⟨3, 0, some 3, some 1, some 5⟩ from rfl,
      Option.some_bind, sq2_len2, Option.some_bind]
  have hg3 : gPair sqVerts squareMesh2.hes 3 = some (0, 1) := by
    rw [gPair, show squareMesh2.hes.get? 3 = some ⟨0, 0, some 0, some 2, some 4⟩ from rfl,
      Option.some_bind, sq2_len3, Option.some_bind]
  have hprs : omapM (gPair sqVerts squareMesh2.hes) [0, 1, 2, 3] =
      some [((1 : Nat), (1 : ℝ)), (2, 1), (3, 1), (0, 1)] := by
    rw [omapM, hg0, Option.some_bind, omapM, hg1, Option.some_bind,
      omapM, hg2, Option.some_bind, omapM, hg3, Option.some_bind, omapM]
    rfl
  have hps : omapM sqVerts.get?
      (([((1 : Nat), (1 : ℝ)), (2, 1), (3, 1), (0, 1)]).map Prod.fst) =
      some [((1 : ℝ) / 2, -(1 : ℝ) / 2, (0 : ℝ)), ((1 : ℝ) / 2, (1 : ℝ) / 2, (0 : ℝ)),
            (-(1 : ℝ) / 2, (1 : ℝ) / 2, (0 : ℝ)), (-(1 : ℝ) / 2, -(1 : ℝ) / 2, (0 : ℝ))] := rfl
  have h := @c5_generate_next_vertex sqVerts squareMesh2.hes
    0 [1, 2, 3]
    [((1 : Nat), (1 : ℝ)), (2, 1), (3, 1), (0, 1)]
    [((1 : ℝ) / 2, -(1 : ℝ) / 2, (0 : ℝ)), ((1 : ℝ) / 2, (1 : ℝ) / 2, (0 : ℝ)),
      (-(1 : ℝ) / 2, (1 : ℝ) / 2, (0 : ℝ)), (-(1 : ℝ) / 2, -(1 : ℝ) / 2, (0 : ℝ))]
    ((0 : ℝ), (0 : ℝ), (1 : ℝ)) 6
    (by decide) (by decide) (by decide) hprs hps sq2_normal
  rw [h]
  have hcen : centerOf [((1 : ℝ) / 2, -(1 : ℝ) / 2, (0 : ℝ)), ((1 : ℝ) / 2, (1 : ℝ) / 2, (0 : ℝ)),
      (-(1 : ℝ) / 2, (1 : ℝ) / 2, (0 : ℝ)), (-(1 : ℝ) / 2, -(1 : ℝ) / 2, (0 : ℝ))] =
      ((0 : ℝ), (0 : ℝ), (0 : ℝ)) := by
    rw [centerOf]
    norm_num
  rw [hcen]
  have hsum : (([((1 : Nat), (1 : ℝ)), (2, 1), (3, 1), (0, 1)]).map Prod.snd).sum = 4 := by
    norm_num
  rw [hsum]
  have hlen : (([((1 : Nat), (1 : ℝ)), (2, 1), (3, 1), (0, 1)]).length : ℝ) = 4 := by
    norm_num
  rw [hlen, smul3, sub3]
  norm_num

/-- C10 (implicit): `HalfEdge.length` and `HalfEdge.get_vertices` read
`self.opposite.vertex`, so on a boundary half-edge (absent `opposite`)
both fail instead of returning a value; consequently
`generate_next_vertex` fails on any face whose boundary cycle contains a
boundary half-edge. -/
theorem c10_boundary_access_fails :
    (∀ (verts : List Point) (hes : List HalfEdge) (i : Nat) (he : HalfEdge),
        hes.get? i = some he → he.opposite = none →
        halfedgeLength verts hes i = none ∧ halfedgeGetVertices verts hes i = none) ∧
    (∀ (verts : List Point) (hes : List HalfEdge) (a : Nat) (cyc : List Nat)
        (c : Nat) (he : HalfEdge) (fuel : Nat),
        nextChainB hes a cyc a = true → a ∉ cyc →
        c ∈ a :: cyc → hes.get? c = some he → he.opposite = none →
        generateNextVertex verts hes a fuel = none) := by
  have hpart1 : ∀ (verts : List Point) (hes : List HalfEdge) (i : Nat) (he : HalfEdge),
      hes.get? i = some he → he.opposite = none →
      halfedgeLength verts hes i = none ∧ halfedgeGetVertices verts hes i = none := by
    intro verts hes i he hget hopp
    constructor
    · rw [halfedgeLength, hget, Option.some_bind, hopp]
      rfl
    · rw [halfedgeGetVertices, hget, Option.some_bind, hopp]
      rfl
  refine ⟨hpart1, ?_⟩
  intro verts hes a cyc c he fuel hch hnin hc hget hopp
  rcases List.mem_cons.1 hc with rfl | hcyc
  · have hl0 : halfedgeLength verts hes c = none := (hpart1 verts hes c he hget hopp).1
    rw [generateNextVertex, hget, Option.some_bind, hl0]
    rfl
  · cases cyc with
    | nil => simp at hcyc
    | cons c1 rest =>
      rw [nextChainB, Bool.and_eq_true] at hch
      obtain ⟨he0, hget0, hnext0⟩ := heNext_inv (of_decide_eq_true hch.1)
      rw [generateNextVertex, hget0, Option.some_bind]
      cases hl0 : halfedgeLength verts hes a with
      | none => rfl
      | some l0 =>
        rw [Option.some_bind, hnext0, Option.some_bind]
        have hgc : gPair verts hes c = none := by
          rw [gPair, hget, Option.some_bind,
            (hpart1 verts hes c he hget hopp).1]
          rfl
        have hmapnone : omapM (gPair verts hes) (c1 :: rest) = none :=
          omapM_none_of_mem (gPair verts hes) (c1 :: rest) c hcyc hgc
        rw [gnvLoop_none verts hes a rest c1 hch.2 hnin hmapnone fuel _ _ _]
        rfl

theorem c10_boundary_access_fails_witness :
    halfedgeLength sqVerts quadMesh.hes 0 = none ∧
    halfedgeGetVertices sqVerts quadMesh.hes 0 = none ∧
    generateNextVertex sqVerts quadMesh.hes 0 9 = none := by
  have h1 := c10_boundary_access_fails.1 sqVerts quadMesh.hes 0
    ⟨1, 0, some 1, some 3, none⟩ (by rfl) rfl
  refine ⟨h1.1, h1.2, ?_⟩
  exact c10_boundary_access_fails.2 sqVerts quadMesh.hes 0 [1, 2, 3] 2
    ⟨3, 0, some 3, some 1, none⟩ 9 (by decide) (by decide) (by decide) (by rfl) rfl

/-- The index pair computed for a single table entry inside the
`get_all_edges` loop. -/
def pairOf (hes : List HalfEdge) (e : (Nat × Nat) × Nat) : Option (Nat × Nat) :=
  match hes.get? e.2 with
  | some he =>
    match he.next with
    | some nid =>
      match hes.get? nid with
      | some nhe => some (he.vertex, nhe.vertex)
      | none => none
    | none => none
  | none => none

/-- The reverse-pair deduplication performed by the `get_all_edges` loop,
separated from the per-entry pair computation. -/
def dedupRev : List (Nat × Nat) → List (Nat × Nat) → List (Nat × Nat)
  | [], acc => acc
  | p :: rest, acc =>
    if (p.2, p.1) ∈ acc then dedupRev rest acc else dedupRev rest (acc ++ [p])

theorem edgeLoop_eq (hes : List HalfEdge) :
    ∀ (T : HETable) (acc : List (Nat × Nat)) (P : List (Nat × Nat)),
      omapM (pairOf hes) T = some P →
      edgeLoop hes T acc = some (dedupRev P acc) := by
  intro T
  induction T with
  | nil =>
    intro acc P h
    rw [omapM] at h
    rw [← Option.some.inj h]
    rfl
  | cons e rest ih =>
    intro acc P h
    rw [omapM] at h
    cases hp : pairOf hes e with
    | none => rw [hp, Option.none_bind] at h; exact Option.noConfusion h
    | some y =>
      rw [hp, Option.some_bind] at h
      cases hm : omapM (pairOf hes) rest with
      | none => rw [hm] at h; exact Option.noConfusion h
      | some P' =>
        rw [hm, Option.map_some'] at h
        have hP : P = y :: P' := (Option.some.inj h).symm
        subst hP
        rw [pairOf] at hp
        cases hget : hes.get? e.2 with
        | none => rw [hget] at hp; exact Option.noConfusion hp
        | some he =>
          rw [hget] at hp
          dsimp only at hp
          cases hnx : he.next with
          | none => rw [hnx] at hp; exact Option.noConfusion hp
          | some nid =>
            rw [hnx] at hp
            dsimp only at hp
            cases hget2 : hes.get? nid with
            | none => rw [hget2] at hp; exact Option.noConfusion hp
            | some nhe =>
              rw [hget2] at hp
              dsimp only at hp
              have hy : y = (he.vertex, nhe.vertex) := (Option.some.inj hp).symm
              subst hy
              rw [edgeLoop, hget]
              dsimp only
              rw [hnx]
              dsimp only
              rw [hget2]
              dsimp only
              rw [dedupRev]
              by_cases hmem : (nhe.vertex, he.vertex) ∈ acc
              · rw [if_pos hmem, if_pos hmem, ih acc P' hm]
              · rw [if_neg hmem, if_neg hmem, ih (acc ++ [(he.vertex, nhe.vertex)]) P' hm]

theorem omapM_append {a b : Type} (f : a → Option b) :
    ∀ (l1 l2 : List a) (y1 y2 : List b),
      omapM f l1 = some y1 → omapM f l2 = some y2 →
      omapM f (l1 ++ l2) = some (y1 ++ y2) := by
  intro l1
  induction l1 with
  | nil =>
    intro l2 y1 y2 h1 h2
    rw [omapM] at h1
    rw [← Option.some.inj h1]
    simpa using h2
  | cons x xs ih =>
    intro l2 y1 y2 h1 h2
    rw [omapM] at h1
    cases hx : f x with
    | none => rw [hx, Option.none_bind] at h1; exact Option.noConfusion h1
    | some y =>
      rw [hx, Option.some_bind] at h1
      cases hxs : omapM f xs with
      | none => rw [hxs] at h1; exact Option.noConfusion h1
      | some ys =>
        rw [hxs, Option.map_some'] at h1
        have hy1 : y1 = y :: ys := (Option.some.inj h1).symm
        subst hy1
        rw [List.cons_append, omapM, hx, Option.some_bind, ih l2 ys y2 hxs h2,
          Option.map_some', List.cons_append]

theorem omapM_map_forall {a b c : Type} (f : b → Option c) (g : a → b) (h : a → c) :
    ∀ l : List a, (∀ x ∈ l, f (g x) = some (h x)) →
      omapM f (l.map g) = some (l.map h) := by
  intro l
  induction l with
  | nil => intro _; rfl
  | cons x xs ih =>
    intro hall
    rw [List.map_cons, omapM, hall x (List.mem_cons_self _ _), Option.some_bind,
      ih (fun y hy => hall y (List.mem_cons_of_mem _ hy)), Option.map_some',
      List.map_cons]

theorem degSum_succ_of_get {faces : List (List Nat)} {f : Nat} {idx : List Nat}
    (hf : faces.get? f = some idx) :
    degSum faces (f + 1) = degSum faces f + idx.length := by
  induction faces generalizing f with
  | nil => simp at hf
  | cons idx0 rest ih =>
    cases f with
    | zero =>
      have : idx0 = idx := Option.some.inj hf
      subst this
      rw [show degSum (idx0 :: rest) 1 = idx0.length + degSum rest 0 from rfl,
        show degSum (idx0 :: rest) 0 = 0 from rfl,
        show degSum rest 0 = 0 from by cases rest <;> rfl]
      omega
    | succ f =>
      rw [show degSum (idx0 :: rest) (f + 1 + 1) = idx0.length + degSum rest (f + 1) from rfl,
        show degSum (idx0 :: rest) (f + 1) = idx0.length + degSum rest f from rfl,
        ih (by simpa using hf)]
      omega

/-- The sequence of index pairs recorded by `get_all_edges` for one face:
the pair recorded for the half-edge at block position `r` is the directed
edge starting at that half-edge's head, i.e. the face's directed key at
position `(r+1) mod k`. -/
def shiftKeys (idx : List Nat) : List (Nat × Nat) :=
  (List.range idx.length).map fun r =>
    (idx.getD ((r + 1) % idx.length) 0, idx.getD ((r + 2) % idx.length) 0)

/-- All pairs recorded by `get_all_edges`, face by face. -/
def expPairs : List (List Nat) → List (Nat × Nat)
  | [] => []
  | idx :: rest => shiftKeys idx ++ expPairs rest

theorem face_pairs {nV : Nat} {faces : List (List Nat)} {m : TMesh}
    (hm : mkMesh nV faces = some m)
    (hwf' : ∀ idx ∈ faces, idx ≠ [] ∧ ∀ v ∈ idx, v < nV)
    {f : Nat} {idx : List Nat} (hf : faces.get? f = some idx) :
    omapM (pairOf m.hes) (expFaceTable (degSum faces f) idx) = some (shiftKeys idx) := by
  rw [expFaceTable, shiftKeys]
  apply omapM_map_forall
  intro r hr
  have hrk : r < idx.length := List.mem_range.1 hr
  have hk : 0 < idx.length := by omega
  obtain ⟨he, hget, hv, hn, _⟩ := mesh_he_fields hm hwf' hf hrk
  obtain ⟨nhe, hget2, hv2, _, _⟩ := mesh_he_fields hm hwf' hf (Nat.mod_lt (r + 1) hk)
  rw [pairOf]
  dsimp only
  rw [hget]
  dsimp only
  rw [hn]
  dsimp only
  rw [hget2]
  dsimp only
  rw [hv, hv2, mod_succ_eq]

theorem table_pairs {nV : Nat} {faces : List (List Nat)} {m : TMesh}
    (hm : mkMesh nV faces = some m)
    (hwf' : ∀ idx ∈ faces, idx ≠ [] ∧ ∀ v ∈ idx, v < nV) :
    ∀ (rest : List (List Nat)) (k : Nat), rest = faces.drop k →
      omapM (pairOf m.hes) (expTable (degSum faces k) rest) = some (expPairs rest) := by
  intro rest
  induction rest with
  | nil => intro k _; rfl
  | cons idx rest' ih =>
    intro k hdrop
    have hfk : faces.get? k = some idx := by
      have h0 : (faces.drop k).get? 0 = some idx := by rw [← hdrop]; rfl
      rw [List.get?_drop, Nat.add_zero] at h0
      exact h0
    have hrest : rest' = faces.drop (k + 1) := by
      have h1 : (faces.drop k).drop 1 = faces.drop (k + 1) := List.drop_drop 1 k faces
      rw [← hdrop] at h1
      have h2 : List.drop (k + 1) faces = rest' := by simpa using h1.symm
      exact h2.symm
    rw [show expTable (degSum faces k) (idx :: rest') =
      expFaceTable (degSum faces k) idx ++
        expTable (degSum faces k + idx.length) rest' from rfl]
    rw [show expPairs (idx :: rest') = shiftKeys idx ++ expPairs rest' from rfl]
    refine omapM_append _ _ _ _ _ (face_pairs hm hwf' hfk) ?_
    rw [← degSum_succ_of_get hfk]
    exact ih (k + 1) hrest

theorem mesh_pairs {nV : Nat} {faces : List (List Nat)} {m : TMesh}
    (hm : mkMesh nV faces = some m)
    (hwf' : ∀ idx ∈ faces, idx ≠ [] ∧ ∀ v ∈ idx, v < nV) :
    omapM (pairOf m.hes) (expTable 0 faces) = some (expPairs faces) := by
  have := table_pairs hm hwf' faces 0 (by rw [List.drop_zero])
  rw [show degSum faces 0 = 0 from by cases faces <;> rfl] at this
  exact this

theorem shift_range_perm (k : Nat) (hk : 0 < k) :
    (((List.range k).map fun r => (r + 1) % k)).Perm (List.range k) := by
  have hnd : (((List.range k).map fun r => (r + 1) % k)).Nodup := by
    refine List.Nodup.map_on ?_ (List.nodup_range k)
    intro r1 h1 r2 h2 h
    exact mod_succ_inj (List.mem_range.1 h1) (List.mem_range.1 h2) h
  rw [List.perm_ext_iff_of_nodup hnd (List.nodup_range k)]
  intro x
  constructor
  · intro hx
    obtain ⟨r, _, hrx⟩ := List.mem_map.1 hx
    rw [List.mem_range, ← hrx]
    exact Nat.mod_lt _ hk
  · intro hx
    have hxk : x < k := List.mem_range.1 hx
    refine List.mem_map.2 ⟨(x + k - 1) % k, List.mem_range.2 (Nat.mod_lt _ hk), ?_⟩
    rw [mod_succ_eq, show x + k - 1 + 1 = x + k from by omega, Nat.add_mod_right,
      Nat.mod_eq_of_lt hxk]

theorem shiftKeys_perm (idx : List Nat) (hk : 0 < idx.length) :
    (shiftKeys idx).Perm (faceKeys idx) := by
  have he : shiftKeys idx = (((List.range idx.length).map fun r => (r + 1) % idx.length).map
      fun j => (idx.getD j 0, idx.getD ((j + 1) % idx.length) 0)) := by
    rw [List.map_map, shiftKeys]
    congr 1
    funext r
    simp only [Function.comp]
    rw [mod_succ_eq]
  rw [he, faceKeys]
  exact (shift_range_perm idx.length hk).map _

theorem expPairs_perm : ∀ (faces : List (List Nat)),
    (∀ idx ∈ faces, 0 < idx.length) → (expPairs faces).Perm (allKeys faces) := by
  intro faces
  induction faces with
  | nil => intro _; exact List.Perm.refl []
  | cons idx rest ih =>
    intro h
    rw [show expPairs (idx :: rest) = shiftKeys idx ++ expPairs rest from rfl,
      show allKeys (idx :: rest) = faceKeys idx ++ allKeys rest from rfl]
    exact (shiftKeys_perm idx (h idx (List.mem_cons_self _ _))).append
      (ih fun i hi => h i (List.mem_cons_of_mem _ hi))

theorem getD_ne_of_nodup {idx : List Nat} (hnd : idx.Nodup) {r1 r2 : Nat}
    (h1 : r1 < idx.length) (h2 : r2 < idx.length) (hne : r1 ≠ r2) :
    idx.getD r1 0 ≠ idx.getD r2 0 := by
  rw [List.getD_eq_get?, List.getD_eq_get?, List.get?_eq_get h1, List.get?_eq_get h2]
  intro h
  simp only [Option.getD_some] at h
  have := (List.Nodup.get_inj_iff hnd).1 h
  exact hne (congrArg Fin.val this)

theorem allKeys_mem : ∀ {faces : List (List Nat)} {p : Nat × Nat}, p ∈ allKeys faces →
    ∃ idx ∈ faces, ∃ r, r < idx.length ∧
      p = (idx.getD r 0, idx.getD ((r + 1) % idx.length) 0) := by
  intro faces
  induction faces with
  | nil => intro p hp; exact absurd hp (List.not_mem_nil p)
  | cons idx rest ih =>
    intro p hp
    rw [show allKeys (idx :: rest) = faceKeys idx ++ allKeys rest from rfl,
      List.mem_append] at hp
    rcases hp with hp | hp
    · obtain ⟨r, hr, hrp⟩ := List.mem_map.1 hp
      exact ⟨idx, List.mem_cons_self _ _, r, List.mem_range.1 hr, hrp.symm⟩
    · obtain ⟨idx', hi, r, hr, hrp⟩ := ih hp
      exact ⟨idx', List.mem_cons_of_mem _ hi, r, hr, hrp⟩

theorem allKeys_comp_ne {nV : Nat} {faces : List (List Nat)} (hwf : wellFormed nV faces) :
    ∀ p ∈ allKeys faces, p.1 ≠ p.2 := by
  intro p hp
  obtain ⟨idx, hi, r, hr, hrp⟩ := allKeys_mem hp
  obtain ⟨hlen, hnd, _⟩ := hwf.1 idx hi
  have hk : 0 < idx.length := by omega
  have hrne : r ≠ (r + 1) % idx.length := by
    rcases Nat.lt_or_ge (r + 1) idx.length with h | h
    · rw [Nat.mod_eq_of_lt h]; omega
    · rw [show r + 1 = idx.length from by omega, Nat.mod_self]; omega
  rw [hrp]
  exact getD_ne_of_nodup hnd hr (Nat.mod_lt _ hk) hrne

theorem sym2_swap (a b : Nat) : sym2 (b, a) = sym2 (a, b) := by
  simp only [sym2]
  by_cases h1 : b ≤ a <;> by_cases h2 : a ≤ b
  · rw [if_pos h1, if_pos h2, Nat.le_antisymm h2 h1]
  · rw [if_pos h1, if_neg h2]
  · rw [if_neg h1, if_pos h2]
  · exact absurd (Nat.le_of_not_le h1) h2

theorem sym2_eq_cases {p q : Nat × Nat} (h : sym2 q = sym2 p) : q = p ∨ q = (p.2, p.1) := by
  simp only [sym2] at h
  by_cases h1 : q.1 ≤ q.2 <;> by_cases h2 : p.1 ≤ p.2
  · rw [if_pos h1, if_pos h2] at h; exact Or.inl h
  · rw [if_pos h1, if_neg h2] at h; exact Or.inr h
  · rw [if_neg h1, if_pos h2] at h
    right
    rw [Prod.ext_iff] at h ⊢
    exact ⟨h.2, h.1⟩
  · rw [if_neg h1, if_neg h2] at h
    left
    rw [Prod.ext_iff] at h ⊢
    exact ⟨h.2, h.1⟩

theorem dedupRev_spec : ∀ (P acc : List (Nat × Nat)),
    P.Nodup →
    (∀ p ∈ P, p.1 ≠ p.2) →
    (∀ p ∈ acc, p.1 ≠ p.2) →
    (∀ p ∈ P, p ∉ acc) →
    (acc.map sym2).Nodup →
    ((dedupRev P acc).map sym2).Nodup ∧
    (∀ p ∈ dedupRev P acc, p.1 ≠ p.2) ∧
    ∀ x, x ∈ (dedupRev P acc).map sym2 ↔ (x ∈ acc.map sym2 ∨ x ∈ P.map sym2) := by
  intro P
  induction P with
  | nil =>
    intro acc _ _ hacc _ hnd
    refine ⟨hnd, hacc, ?_⟩
    intro x
    simp [dedupRev]
  | cons p rest ih =>
    intro acc hPnd hPc hacc hdisj hnd
    have hpc : p.1 ≠ p.2 := hPc p (List.mem_cons_self _ _)
    have hrestnd : rest.Nodup := (List.nodup_cons.1 hPnd).2
    have hpnotrest : p ∉ rest := (List.nodup_cons.1 hPnd).1
    have hrestc : ∀ q ∈ rest, q.1 ≠ q.2 := fun q hq => hPc q (List.mem_cons_of_mem _ hq)
    by_cases hmem : (p.2, p.1) ∈ acc
    · rw [show dedupRev (p :: rest) acc = dedupRev rest acc from by
        rw [dedupRev, if_pos hmem]]
      obtain ⟨h1, h2, h3⟩ := ih acc hrestnd hrestc hacc
        (fun q hq => hdisj q (List.mem_cons_of_mem _ hq)) hnd
      refine ⟨h1, h2, ?_⟩
      intro x
      rw [h3 x, List.map_cons, List.mem_cons]
      constructor
      · rintro (hx | hx)
        · exact Or.inl hx
        · exact Or.inr (Or.inr hx)
      · rintro (hx | hx | hx)
        · exact Or.inl hx
        · left
          rw [hx]
          exact List.mem_map.2 ⟨(p.2, p.1), hmem, sym2_swap p.1 p.2⟩
        · exact Or.inr hx
    · rw [show dedupRev (p :: rest) acc = dedupRev rest (acc ++ [p]) from by
        rw [dedupRev, if_neg hmem]]
      have hpacc : p ∉ acc := hdisj p (List.mem_cons_self _ _)
      have hsymp : sym2 p ∉ acc.map sym2 := by
        intro hx
        obtain ⟨q, hq, hqe⟩ := List.mem_map.1 hx
        rcases sym2_eq_cases hqe with h | h
        · exact hpacc (h ▸ hq)
        · exact hmem (h ▸ hq)
      have hacc' : ∀ q ∈ acc ++ [p], q.1 ≠ q.2 := by
        intro q hq
        rcases List.mem_append.1 hq with hq | hq
        · exact hacc q hq
        · rw [List.mem_singleton.1 hq]
          exact hpc
      have hdisj' : ∀ q ∈ rest, q ∉ acc ++ [p] := by
        intro q hq hqin
        rcases List.mem_append.1 hqin with hqin | hqin
        · exact hdisj q (List.mem_cons_of_mem _ hq) hqin
        · exact hpnotrest (List.mem_singleton.1 hqin ▸ hq)
      have hnd' : ((acc ++ [p]).map sym2).Nodup := by
        rw [List.map_append]
        simp only [List.map_cons, List.map_nil]
        rw [List.nodup_append]
        refine ⟨hnd, List.nodup_singleton _, ?_⟩
        intro x hx hx2
        rw [List.mem_singleton] at hx2
        exact hsymp (hx2 ▸ hx)
      obtain ⟨h1, h2, h3⟩ := ih (acc ++ [p]) hrestnd hrestc hacc' hdisj' hnd'
      refine ⟨h1, h2, ?_⟩
      intro x
      rw [h3 x, List.map_append]
      simp only [List.map_cons, List.map_nil, List.mem_append, List.mem_cons,
        List.mem_singleton, List.not_mem_nil, or_false]
      tauto

/-- C6: on a mesh built from well-formed input, `get_all_edges` succeeds and
returns exactly one index pair per undirected edge of the mesh (the number
of distinct unordered key pairs of its table): the two indices of every
returned pair are distinct, and no unordered pair is represented twice —
a pair and its reverse are counted once. -/
theorem c6_all_edges {nV : Nat} {faces : List (List Nat)} {m : TMesh}
    (hm : mkMesh nV faces = some m) (hwf : wellFormed nV faces) :
    ∃ L, getAllEdges m = some L ∧ L.length = undirEdgeCount m ∧
      (∀ p ∈ L, p.1 ≠ p.2) ∧ (L.map sym2).Nodup := by
  have hwf' : ∀ idx ∈ faces, idx ≠ [] ∧ ∀ v ∈ idx, v < nV := by
    intro idx hi
    obtain ⟨hl, _, hv⟩ := hwf.1 idx hi
    refine ⟨?_, hv⟩
    intro h
    rw [h] at hl
    simp at hl
  have htab : m.table = expTable 0 faces := mesh_table hm hwf' hwf.2
  have hpairs : omapM (pairOf m.hes) m.table = some (expPairs faces) := by
    rw [htab]
    exact mesh_pairs hm hwf'
  have hL : getAllEdges m = some (dedupRev (expPairs faces) []) := by
    rw [getAllEdges]
    exact edgeLoop_eq m.hes m.table [] (expPairs faces) hpairs
  have hperm : (expPairs faces).Perm (allKeys faces) :=
    expPairs_perm faces (fun idx hi => by have := (hwf.1 idx hi).1; omega)
  have hPnd : (expPairs faces).Nodup := (List.Perm.nodup_iff hperm).2 hwf.2
  have hPc : ∀ p ∈ expPairs faces, p.1 ≠ p.2 := fun p hp =>
    allKeys_comp_ne hwf p (hperm.mem_iff.1 hp)
  obtain ⟨hLnd, hLc, hLmem⟩ := dedupRev_spec (expPairs faces) [] hPnd hPc
    (fun p hp => absurd hp (List.not_mem_nil p))
    (fun p _ => List.not_mem_nil p)
    (by simp)
  refine ⟨dedupRev (expPairs faces) [], hL, ?_, hLc, hLnd⟩
  have hlen1 : (dedupRev (expPairs faces) []).length =
      ((dedupRev (expPairs faces) []).map sym2).length := (List.length_map _ _).symm
  have hfs : ((dedupRev (expPairs faces) []).map sym2).toFinset =
      ((allKeys faces).map sym2).toFinset := by
    ext x
    rw [List.mem_toFinset, List.mem_toFinset, hLmem x]
    have h0 : x ∈ List.map sym2 ([] : List (Nat × Nat)) ↔ False := by simp
    rw [h0, false_or]
    exact (hperm.map sym2).mem_iff
  have hcnt : undirEdgeCount m = ((allKeys faces).map sym2).toFinset.card := by
    rw [undirEdgeCount, ← List.card_toFinset]
    congr 1
    rw [htab]
    rw [show (expTable 0 faces).map (fun e => sym2 e.1) =
      ((expTable 0 faces).map Prod.fst).map sym2 from by rw [List.map_map]; rfl]
    rw [expTable_keys]
  rw [hlen1, ← List.toFinset_card_of_nodup hLnd, hfs, hcnt]

theorem c6_all_edges_witness :
    ∃ L, getAllEdges tetMesh = some L ∧ L.length = undirEdgeCount tetMesh ∧
      (∀ p ∈ L, p.1 ≠ p.2) ∧ (L.map sym2).Nodup :=
  c6_all_edges
    (show mkMesh 4 [[0, 1, 2], [0, 2, 3], [0, 3, 1], [1, 3, 2]] = some tetMesh from by rfl)
    (by constructor <;> decide)
